import Mathlib

/-!
Verification development for the content normalizer core
(`modules/content_formatter.py`, `modules/content_parser.py`).

The Python source is shallowly embedded: strings are `List Char` (wrapped in
`String` at the API boundary), Python `json` values are the inductive `Json`
below, fallible operations return `Option`/`Except`, and every loop is a
structural or fuel-based recursion so that all definitions evaluate inside
the kernel.  Stdlib behaviour (`json`, `re`, `csv`, `html.parser`) is
modelled for the feature subset the source exercises; deliberate
approximations are noted at the definition that makes them.
-/

namespace AV

/-- JSON whitespace, exactly the four characters `json.decoder` skips. -/
def jsonWs (c : Char) : Bool :=
  c = ' ' || c = '\t' || c = '\n' || c = '\r'

/-- Python `str.strip` whitespace (ASCII part; unicode spaces are not
modelled). -/
def pyWs (c : Char) : Bool :=
  c = ' ' || c = '\t' || c = '\n' || c = '\r' || c = '\x0b' || c = '\x0c'

/-- ASCII word character, modelling `\w` of Python `re` (unicode word
characters are not modelled). -/
def isWordC (c : Char) : Bool :=
  c.isAlphanum || c = '_'

/-- Drop leading Python whitespace (`str.lstrip`). -/
def lstripP (l : List Char) : List Char := l.dropWhile pyWs

/-- Drop trailing Python whitespace (`str.rstrip`). -/
def rstripP (l : List Char) : List Char := (l.reverse.dropWhile pyWs).reverse

/-- Python `str.strip`. -/
def stripP (l : List Char) : List Char := rstripP (lstripP l)

/-- Skip JSON whitespace, as the `json` scanner does between tokens. -/
def skipWs (l : List Char) : List Char := l.dropWhile jsonWs

/-- Python `str.split('\n')`. -/
def splitNL : List Char → List (List Char)
  | [] => [[]]
  | c :: rest =>
    if c = '\n' then [] :: splitNL rest
    else
      match splitNL rest with
      | l :: ls => (c :: l) :: ls
      | [] => [[c]]

/-- Python `'\n'.join`. -/
def joinNL : List (List Char) → List Char
  | [] => []
  | [l] => l
  | l :: ls => l ++ '\n' :: joinNL ls

/-- Substring test (`needle in haystack`). -/
def hasSub (p : List Char) : List Char → Bool
  | [] => p.isPrefixOf []
  | c :: rest => p.isPrefixOf (c :: rest) || hasSub p rest

/-- Python `str.lower` (ASCII part). -/
def lowerL (l : List Char) : List Char := l.map Char.toLower

/-! ## JSON values

`json.loads` results.  Mutual inductives keep every recursion structural so
terms reduce in the kernel.  Python floats are not modelled: the embedded
parser rejects fraction/exponent forms and the `NaN`/`Infinity` extensions,
which the claims never exercise. -/

mutual
inductive Json where
  | null
  | bool (b : Bool)
  | int (n : Int)
  | str (s : List Char)
  | arr (xs : JList)
  | obj (ps : JPairs)
inductive JList where
  | nil
  | cons (x : Json) (xs : JList)
inductive JPairs where
  | nil
  | cons (k : List Char) (v : Json) (ps : JPairs)
end

def ofList : List Json → JList
  | [] => .nil
  | x :: xs => .cons x (ofList xs)

def ofPairs : List (List Char × Json) → JPairs
  | [] => .nil
  | (k, v) :: ps => .cons k v (ofPairs ps)

def jobj (ps : List (List Char × Json)) : Json := .obj (ofPairs ps)

def jarr (xs : List Json) : Json := .arr (ofList xs)

def snocL : JList → Json → JList
  | .nil, v => .cons v .nil
  | .cons x xs, v => .cons x (snocL xs v)

/-- `d[k] = v` on a Python dict kept as an insertion-ordered list:
an existing key keeps its position and gets the new value. -/
def insertKey : JPairs → List Char → Json → JPairs
  | .nil, k, v => .cons k v .nil
  | .cons k' v' ps, k, v =>
    if k' = k then .cons k' v ps else .cons k' v' (insertKey ps k v)

def JPairs.keys : JPairs → List (List Char)
  | .nil => []
  | .cons k _ ps => k :: ps.keys

/-- Dict lookup (`d.get(k)`). -/
def lookupKey : JPairs → List Char → Option Json
  | .nil, _ => none
  | .cons k' v ps, k => if k' = k then some v else lookupKey ps k

/-! ## Parser: model of `json.loads` -/

def hexVal (c : Char) : Option Nat :=
  if '0' ≤ c ∧ c ≤ '9' then some (c.toNat - 48)
  else if 'a' ≤ c ∧ c ≤ 'f' then some (c.toNat - 87)
  else if 'A' ≤ c ∧ c ≤ 'F' then some (c.toNat - 55)
  else none

/-- `\uXXXX` decoding, including surrogate pairs: input starts right after
the `\u`.  Returns the decoded character and the rest. -/
def pUni (r0 : List Char) : Option (Char × List Char) :=
  match r0 with
  | a :: b :: c2 :: d :: r1 =>
    match hexVal a, hexVal b, hexVal c2, hexVal d with
    | some ha, some hb, some hc, some hd =>
      let n := ((ha * 16 + hb) * 16 + hc) * 16 + hd
      if 0xd800 ≤ n ∧ n < 0xdc00 then
        match r1 with
        | '\\' :: 'u' :: a2 :: b2 :: c3 :: d2 :: r2 =>
          match hexVal a2, hexVal b2, hexVal c3, hexVal d2 with
          | some ha2, some hb2, some hc2, some hd2 =>
            let m := ((ha2 * 16 + hb2) * 16 + hc2) * 16 + hd2
            if 0xdc00 ≤ m ∧ m < 0xe000 then
              some (Char.ofNat (0x10000 + (n - 0xd800) * 0x400 + (m - 0xdc00)), r2)
            else none
          | _, _, _, _ => none
        | _ => none
      else if 0xdc00 ≤ n ∧ n < 0xe000 then none
      else some (Char.ofNat n, r1)
    | _, _, _, _ => none
  | _ => none

/-- String-literal body parser: input starts right after the opening quote.
Strict mode: raw control characters are rejected, as CPython does.
Lone surrogate escapes are rejected (CPython would build a lone surrogate,
which `Char` cannot represent; no claim depends on this corner).
Fuel decreases once per decoded character; every step consumes at least one
input character, so the wrapper's `length + 1` always suffices. -/
def pStrF : Nat → List Char → Option (List Char × List Char)
  | 0, _ => none
  | _ + 1, [] => none
  | f + 1, c :: r =>
    if c = '\x22' then some ([], r)
    else if c = '\\' then
      match r with
      | [] => none
      | e :: r0 =>
        if e = '\x22' then (pStrF f r0).map (fun (s, r') => ('\x22' :: s, r'))
        else if e = '\\' then (pStrF f r0).map (fun (s, r') => ('\\' :: s, r'))
        else if e = '/' then (pStrF f r0).map (fun (s, r') => ('/' :: s, r'))
        else if e = 'b' then (pStrF f r0).map (fun (s, r') => ('\x08' :: s, r'))
        else if e = 'f' then (pStrF f r0).map (fun (s, r') => ('\x0c' :: s, r'))
        else if e = 'n' then (pStrF f r0).map (fun (s, r') => ('\n' :: s, r'))
        else if e = 'r' then (pStrF f r0).map (fun (s, r') => ('\r' :: s, r'))
        else if e = 't' then (pStrF f r0).map (fun (s, r') => ('\t' :: s, r'))
        else if e = 'u' then
          match pUni r0 with
          | some (ch, r1) => (pStrF f r1).map (fun (s, r') => (ch :: s, r'))
          | none => none
        else none
    else if c.toNat < 32 then none
    else (pStrF f r).map (fun (s, r') => (c :: s, r'))

def pStr (l : List Char) : Option (List Char × List Char) := pStrF (l.length + 1) l

def natOfDigits (l : List Char) : Nat :=
  l.foldl (fun a c => a * 10 + (c.toNat - 48)) 0

/-- Integer-literal body: `0 | [1-9][0-9]*`.  A following `.`/`e`/`E` means
CPython would lex a float; the model rejects it instead (floats are out of
the embedding). -/
def pNumBody (l : List Char) : Option (Nat × List Char) :=
  match l with
  | [] => none
  | c :: r =>
    if c = '0' then
      match r with
      | c2 :: _ => if c2 = '.' ∨ c2 = 'e' ∨ c2 = 'E' then none else some (0, r)
      | [] => some (0, r)
    else if c.isDigit then
      let ds := (c :: r).takeWhile Char.isDigit
      match (c :: r).dropWhile Char.isDigit with
      | c2 :: r2 =>
        if c2 = '.' ∨ c2 = 'e' ∨ c2 = 'E' then none
        else some (natOfDigits ds, c2 :: r2)
      | [] => some (natOfDigits ds, [])
    else none

mutual
def pVal : Nat → List Char → Option (Json × List Char)
  | 0, _ => none
  | _ + 1, [] => none
  | fuel + 1, c :: r =>
    if c = '\x22' then (pStr r).map (fun (s, r') => (Json.str s, r'))
    else if c = '\x7b' then
      match skipWs r with
      | '\x7d' :: r2 => some (.obj .nil, r2)
      | r1 => pMembs fuel .nil r1
    else if c = '[' then
      match skipWs r with
      | ']' :: r2 => some (.arr .nil, r2)
      | r1 => pElems fuel .nil r1
    else if c = 'n' then
      if ['u', 'l', 'l'].isPrefixOf r then some (.null, r.drop 3) else none
    else if c = 't' then
      if ['r', 'u', 'e'].isPrefixOf r then some (.bool true, r.drop 3) else none
    else if c = 'f' then
      if ['a', 'l', 's', 'e'].isPrefixOf r then some (.bool false, r.drop 4) else none
    else if c = '-' then
      (pNumBody r).map (fun (n, r') => (Json.int (-(n : Int)), r'))
    else if c.isDigit then
      (pNumBody (c :: r)).map (fun (n, r') => (Json.int (n : Int), r'))
    else none
def pMembs : Nat → JPairs → List Char → Option (Json × List Char)
  | 0, _, _ => none
  | fuel + 1, acc, s =>
    match s with
    | '\x22' :: r =>
      match pStr r with
      | none => none
      | some (k, r1) =>
        match skipWs r1 with
        | ':' :: r2 =>
          match pVal fuel (skipWs r2) with
          | none => none
          | some (v, r3) =>
            let acc' := insertKey acc k v
            match skipWs r3 with
            | ',' :: r4 => pMembs fuel acc' (skipWs r4)
            | '\x7d' :: r4 => some (.obj acc', r4)
            | _ => none
        | _ => none
    | _ => none
def pElems : Nat → JList → List Char → Option (Json × List Char)
  | 0, _, _ => none
  | fuel + 1, acc, s =>
    match pVal fuel s with
    | none => none
    | some (v, r1) =>
      let acc' := snocL acc v
      match skipWs r1 with
      | ',' :: r2 => pElems fuel acc' (skipWs r2)
      | ']' :: r2 => some (.arr acc', r2)
      | _ => none
end

/-- `json.loads` on a character list: a single value with only surrounding
whitespace. -/
def jloadsL (l : List Char) : Option Json :=
  match pVal (l.length + 1) (skipWs l) with
  | some (v, rest) => if skipWs rest = [] then some v else none
  | none => none

/-- The only exception the embedded stdlib raises. -/
inductive PyErr where
  | jsonDecodeError
  | typeError
deriving DecidableEq

/-- `json.loads` at the API boundary. -/
def json_loads (s : String) : Except PyErr Json :=
  match jloadsL s.data with
  | some v => .ok v
  | none => .error .jsonDecodeError

/-! ## Printer: model of `json.dumps(·, indent=2, ensure_ascii=False)` -/

def hexDigit : Nat → Char
  | 0 => '0' | 1 => '1' | 2 => '2' | 3 => '3' | 4 => '4'
  | 5 => '5' | 6 => '6' | 7 => '7' | 8 => '8' | 9 => '9'
  | 10 => 'a' | 11 => 'b' | 12 => 'c' | 13 => 'd' | 14 => 'e'
  | _ => 'f'

def escChar (c : Char) : List Char :=
  if c = '\x22' then ['\\', '\x22']
  else if c = '\\' then ['\\', '\\']
  else if c = '\n' then ['\\', 'n']
  else if c = '\r' then ['\\', 'r']
  else if c = '\t' then ['\\', 't']
  else if c = '\x08' then ['\\', 'b']
  else if c = '\x0c' then ['\\', 'f']
  else if c.toNat < 32 then ['\\', 'u', '0', '0', hexDigit (c.toNat / 16), hexDigit (c.toNat % 16)]
  else [c]

def escStr : List Char → List Char
  | [] => []
  | c :: r => escChar c ++ escStr r

def digitChar : Nat → Char
  | 0 => '0' | 1 => '1' | 2 => '2' | 3 => '3' | 4 => '4'
  | 5 => '5' | 6 => '6' | 7 => '7' | 8 => '8' | _ => '9'

def natCharsAux : Nat → Nat → List Char
  | 0, _ => []
  | f + 1, n => if n < 10 then [digitChar n] else natCharsAux f (n / 10) ++ [digitChar (n % 10)]

def natChars (n : Nat) : List Char := natCharsAux (n + 1) n

def intChars : Int → List Char
  | .ofNat n => natChars n
  | .negSucc m => '-' :: natChars (m + 1)

/-- `indent * 2` spaces. -/
def sp (n : Nat) : List Char := List.replicate (2 * n) ' '

mutual
/-- One value at nesting level `ind`, exactly as `json.dumps(·, indent=2,
ensure_ascii=False)` lays it out. -/
def pr : Json → Nat → List Char
  | .null, _ => ['n', 'u', 'l', 'l']
  | .bool true, _ => ['t', 'r', 'u', 'e']
  | .bool false, _ => ['f', 'a', 'l', 's', 'e']
  | .int i, _ => intChars i
  | .str s, _ => '\x22' :: escStr s ++ ['\x22']
  | .arr .nil, _ => ['[', ']']
  | .arr (.cons x xs), ind =>
    '[' :: '\n' :: prItems (.cons x xs) (ind + 1) ++ '\n' :: sp ind ++ [']']
  | .obj .nil, _ => ['\x7b', '\x7d']
  | .obj (.cons k v ps), ind =>
    '\x7b' :: '\n' :: prPairs (.cons k v ps) (ind + 1) ++ '\n' :: sp ind ++ ['\x7d']
def prItems : JList → Nat → List Char
  | .nil, _ => []
  | .cons x .nil, ind => sp ind ++ pr x ind
  | .cons x (.cons y ys), ind =>
    sp ind ++ pr x ind ++ ',' :: '\n' :: prItems (.cons y ys) ind
def prPairs : JPairs → Nat → List Char
  | .nil, _ => []
  | .cons k v .nil, ind => sp ind ++ '\x22' :: escStr k ++ '\x22' :: ':' :: ' ' :: pr v ind
  | .cons k v (.cons k2 v2 ps), ind =>
    sp ind ++ '\x22' :: escStr k ++ '\x22' :: ':' :: ' ' :: pr v ind ++ ',' :: '\n' :: prPairs (.cons k2 v2 ps) ind
end

/-- `json.dumps(v, indent=2, ensure_ascii=False)`. -/
def dumpsL (v : Json) : List Char := pr v 0

/-! ## `repair_and_format_json` (content_formatter.py, lines 340-603)

Each `re.sub` call of the source is embedded as a dedicated matcher applied
by a left-to-right, non-overlapping scan — the semantics of `re.sub` for
these patterns, whose greedy pieces never backtrack productively. -/

/-- One rewrite attempt at the current position: on success returns the
replacement text and the remainder after the matched region. -/
abbrev Matcher := List Char → Option (List Char × List Char)

/-- `re.sub` scan: try the matcher at every position, left to right,
non-overlapping.  Every matcher consumes at least one character, so fuel
`s.length` always suffices. -/
def subScan (m : Matcher) : Nat → List Char → List Char
  | 0, s => s
  | _ + 1, [] => []
  | f + 1, c :: rest =>
    match m (c :: rest) with
    | some (rep, after) => rep ++ subScan m f after
    | none => c :: subScan m f rest

def applySub (m : Matcher) (s : List Char) : List Char := subScan m s.length s

/-- `re.sub(r'\bW\b', rep, ·)` for a word `W` made of word characters:
replace where the previous original character (if any) and the following
character (if any) are non-word. -/
def subWordAux (w rep : List Char) : Nat → Option Char → List Char → List Char
  | 0, _, s => s
  | _ + 1, _, [] => []
  | f + 1, prev, c :: rest =>
    if w.isPrefixOf (c :: rest) &&
       (match prev with | none => true | some p => ! isWordC p) &&
       (match (c :: rest).drop w.length with | [] => true | d :: _ => ! isWordC d) then
      rep ++ subWordAux w rep f (some (w.getLastD c)) ((c :: rest).drop w.length)
    else c :: subWordAux w rep f (some c) rest

def subWord (w rep s : List Char) : List Char := subWordAux w rep s.length none s

/-- `re.sub(r'//.*?$', '', ·, flags=re.MULTILINE)`: each line is truncated
at its first `//`. -/
def cutLineComment : List Char → List Char
  | [] => []
  | c :: rest =>
    if ['/', '/'].isPrefixOf (c :: rest) then [] else c :: cutLineComment rest

def stripLineComments (s : List Char) : List Char :=
  joinNL ((splitNL s).map cutLineComment)

/-- Suffix right after the first `*/`, if any. -/
def findCloseBC : List Char → Option (List Char)
  | [] => none
  | c :: rest =>
    if ['*', '/'].isPrefixOf (c :: rest) then some (rest.drop 1) else findCloseBC rest

/-- `re.sub(r'/\*.*?\*/', '', ·, flags=re.DOTALL)`: drop from each `/*` to
the nearest following `*/`; an unclosed `/*` is kept verbatim. -/
def stripBCAux : Nat → List Char → List Char
  | 0, s => s
  | _ + 1, [] => []
  | f + 1, c :: rest =>
    if ['/', '*'].isPrefixOf (c :: rest) then
      match findCloseBC (rest.drop 1) with
      | some after => stripBCAux f after
      | none => c :: rest
    else c :: stripBCAux f rest

def stripBlockComments (s : List Char) : List Char := stripBCAux s.length s

/-- `re.sub(r"'(\w+)'\s*:", r'"\1":', ·)`. -/
def mSqKey : Matcher
  | '\x27' :: r =>
    let run := r.takeWhile isWordC
    if run = [] then none
    else
      match r.drop run.length with
      | '\x27' :: r2 =>
        match (r2.dropWhile pyWs) with
        | ':' :: r3 => some ('\x22' :: run ++ '\x22' :: [':'], r3)
        | _ => none
      | _ => none
  | _ => none

/-- `re.sub(r":\s*'([^',}\]]*)'\s*([,}\]])", r': "\1"\2', ·)`. -/
def mSqVal : Matcher
  | ':' :: r =>
    match r.dropWhile pyWs with
    | '\x27' :: r1 =>
      let cap := r1.takeWhile (fun c => ¬(c = '\x27' ∨ c = ',' ∨ c = '\x7d' ∨ c = ']'))
      match r1.drop cap.length with
      | '\x27' :: r2 =>
        match r2.dropWhile pyWs with
        | d :: r3 =>
          if d = ',' ∨ d = '\x7d' ∨ d = ']' then
            some (':' :: ' ' :: '\x22' :: cap ++ '\x22' :: [d], r3)
          else none
        | [] => none
      | _ => none
    | _ => none
  | _ => none

/-! ### Step 3: character-level structural repair -/

structure ScanSt where
  res : List Char      -- output so far, reversed (`result` list; head = last appended)
  inStr : Bool
  esc : Bool
  stack : List Char    -- head = most recently pushed opener
  lwv : Bool           -- `last_was_value`

def scanJ : List Char → ScanSt → ScanSt
  | [], st => st
  | c :: rest, st =>
    if st.esc then scanJ rest { st with res := c :: st.res, esc := false }
    else if c = '\\' then scanJ rest { st with res := c :: st.res, esc := true }
    else if c = '\x22' then
      scanJ rest { st with inStr := !st.inStr, res := c :: st.res,
                           lwv := if st.inStr then true else st.lwv }
    else if st.inStr then scanJ rest { st with res := c :: st.res }
    else if c = '\x7b' ∨ c = '[' then
      let needC := st.lwv && (match st.res with
        | [] => false
        | p :: _ => !(p == ',' || p == ':' || p == '[' || p == '\x7b'))
      let res1 := if needC then ',' :: st.res else st.res
      scanJ rest { st with res := c :: res1, stack := c :: st.stack, lwv := false }
    else if c = '\x7d' then
      let stack' := match st.stack with | '\x7b' :: t => t | s => s
      scanJ rest { st with res := c :: st.res, stack := stack', lwv := false }
    else if c = ']' then
      let stack' := match st.stack with | '[' :: t => t | s => s
      scanJ rest { st with res := c :: st.res, stack := stack', lwv := false }
    else if c = ',' ∨ c = ':' then scanJ rest { st with res := c :: st.res, lwv := false }
    else if c = ' ' ∨ c = '\t' ∨ c = '\n' ∨ c = '\r' then
      scanJ rest { st with res := c :: st.res }
    else
      let needC := st.lwv &&
        !(c == ',' || c == '\x7d' || c == ']' || c == ' ' || c == '\t' || c == '\n' || c == '\r') &&
        (match st.res with
          | [] => false
          | p :: _ => !(p == ',' || p == ':' || p == '[' || p == '\x7b' || p == ' ' || p == '\n')) &&
        (c == '\x22' || (c.isAlphanum && !rest.isEmpty &&
          (match stripP ((c :: rest).take 10) with | '\x22' :: _ => true | _ => false)))
      let res1 := if needC then ',' :: st.res else st.res
      let lwv' :=
        if c.isDigit || c == 't' || c == 'f' || c == 'n' then
          if ['t', 'r', 'u', 'e'].isPrefixOf (stripP (c :: rest)) ||
             ['f', 'a', 'l', 's', 'e'].isPrefixOf (stripP (c :: rest)) ||
             ['n', 'u', 'l', 'l'].isPrefixOf (stripP (c :: rest)) ||
             (match stripP (c :: rest) with | d :: _ => d.isDigit | [] => false) then true
          else st.lwv
        else st.lwv
      scanJ rest { st with res := c :: res1, lwv := lwv' }

/-- Step 3 in full: run the scanner, then close every still-open bracket in
LIFO order. -/
def scanOut (s : List Char) : List Char :=
  let st := scanJ s { res := [], inStr := false, esc := false, stack := [], lwv := false }
  st.res.reverse ++ st.stack.map (fun b => if b = '\x7b' then '\x7d' else ']')

/-! ### Step 4: regex comma healing (the nine `re.sub` passes, in source
order) -/

/-- `(")\s*\n\s*(")` → `\1,\n  \2`. -/
def mA : Matcher
  | '\x22' :: r =>
    let w := r.takeWhile pyWs
    if w.any (· = '\n') then
      match r.drop w.length with
      | '\x22' :: after => some (['\x22', ',', '\n', ' ', ' ', '\x22'], after)
      | _ => none
    else none
  | _ => none

/-- `(")\s+(")` → `\1, \2`. -/
def mB : Matcher
  | '\x22' :: r =>
    let w := r.takeWhile pyWs
    if w = [] then none
    else
      match r.drop w.length with
      | '\x22' :: after => some (['\x22', ',', ' ', '\x22'], after)
      | _ => none
  | _ => none

/-- `(":\s*"[^"]*")\s+(")` → `\1, \2`. -/
def mC : Matcher
  | '\x22' :: ':' :: r =>
    let w1 := r.takeWhile pyWs
    match r.drop w1.length with
    | '\x22' :: r1 =>
      let cap := r1.takeWhile (· ≠ '\x22')
      match r1.drop cap.length with
      | '\x22' :: r2 =>
        let w2 := r2.takeWhile pyWs
        if w2 = [] then none
        else
          match r2.drop w2.length with
          | '\x22' :: after =>
            some ('\x22' :: ':' :: w1 ++ '\x22' :: cap ++ '\x22' :: ',' :: ' ' :: ['\x22'], after)
          | _ => none
      | _ => none
    | _ => none
  | _ => none

/-- Leading `(null|true|false|\d+)` token. -/
def tokAt (s : List Char) : Option (List Char × List Char) :=
  if ['n', 'u', 'l', 'l'].isPrefixOf s then some (['n', 'u', 'l', 'l'], s.drop 4)
  else if ['t', 'r', 'u', 'e'].isPrefixOf s then some (['t', 'r', 'u', 'e'], s.drop 4)
  else if ['f', 'a', 'l', 's', 'e'].isPrefixOf s then some (['f', 'a', 'l', 's', 'e'], s.drop 5)
  else
    match s with
    | c :: _ =>
      if c.isDigit then some (s.takeWhile Char.isDigit, s.dropWhile Char.isDigit) else none
    | [] => none

/-- `(null|true|false|\d+)\s*\n\s*(")` → `\1,\n  \2`. -/
def mD : Matcher := fun s =>
  match tokAt s with
  | some (tok, r) =>
    let w := r.takeWhile pyWs
    if w.any (· = '\n') then
      match r.drop w.length with
      | '\x22' :: after => some (tok ++ ',' :: '\n' :: ' ' :: ' ' :: ['\x22'], after)
      | _ => none
    else none
  | none => none

/-- `(null|true|false|\d+)\s+(")` → `\1, \2`. -/
def mE : Matcher := fun s =>
  match tokAt s with
  | some (tok, r) =>
    let w := r.takeWhile pyWs
    if w = [] then none
    else
      match r.drop w.length with
      | '\x22' :: after => some (tok ++ ',' :: ' ' :: ['\x22'], after)
      | _ => none
  | none => none

/-- `(\})\s*\n\s*(")` → `\1,\n  \2`. -/
def mF : Matcher
  | '\x7d' :: r =>
    let w := r.takeWhile pyWs
    if w.any (· = '\n') then
      match r.drop w.length with
      | '\x22' :: after => some ('\x7d' :: ',' :: '\n' :: ' ' :: ' ' :: ['\x22'], after)
      | _ => none
    else none
  | _ => none

/-- `(\])\s*\n\s*(")` → `\1,\n  \2`. -/
def mG : Matcher
  | ']' :: r =>
    let w := r.takeWhile pyWs
    if w.any (· = '\n') then
      match r.drop w.length with
      | '\x22' :: after => some (']' :: ',' :: '\n' :: ' ' :: ' ' :: ['\x22'], after)
      | _ => none
    else none
  | _ => none

/-- `(")\s*\n\s*(\{)` → `\1,\n  \2`. -/
def mH : Matcher
  | '\x22' :: r =>
    let w := r.takeWhile pyWs
    if w.any (· = '\n') then
      match r.drop w.length with
      | '\x7b' :: after => some ('\x22' :: ',' :: '\n' :: ' ' :: ' ' :: ['\x7b'], after)
      | _ => none
    else none
  | _ => none

/-- `(")\s*\n\s*(\[)` → `\1,\n  \2`. -/
def mI : Matcher
  | '\x22' :: r =>
    let w := r.takeWhile pyWs
    if w.any (· = '\n') then
      match r.drop w.length with
      | '[' :: after => some ('\x22' :: ',' :: '\n' :: ' ' :: ' ' :: ['['], after)
      | _ => none
    else none
  | _ => none

/-! ### Step 4b: line-level healing -/

def startsQuote (l : List Char) : Bool :=
  match l with | '\x22' :: _ => true | _ => false

def endsQuote (l : List Char) : Bool :=
  match l.getLast? with | some '\x22' => true | _ => false

def hasColon (l : List Char) : Bool := l.any (· = ':')

/-- The `for i, line in enumerate(lines)` loop of step 4b, with the mutable
`brace_depth` / `array_depth` / `in_array` state threaded explicitly.
`acc` holds the emitted lines reversed so the head is `repaired_lines[-1]`. -/
def healAux : List (List Char) → Int → Int → List (List Char) → List (List Char)
  | [], _, _, acc => acc.reverse
  | l :: rest, bd, ad, acc =>
    let st := stripP l
    let bd' := bd + (st.count '\x7b' : Int) - (st.count '\x7d' : Int)
    let ad' := ad + (st.count '[' : Int) - (st.count ']' : Int)
    let inArr := 0 < ad'
    if st = [','] ∨ st = [',', ','] then
      match rest with
      | next :: _ =>
        let ns := stripP next
        if startsQuote ns ∧ hasColon ns ∧ inArr then
          healAux rest bd' 0 ([']', ','] :: acc)
        else healAux rest bd' ad' acc
      | [] => acc.reverse
    else
      match rest with
      | [] => (l :: acc).reverse
      | next :: rest2 =>
        let ns0 := stripP next
        let nsOpt : Option (List Char) :=
          if ns0 = [','] then
            match rest2 with
            | n2 :: _ => some (stripP n2)
            | [] => none
          else some ns0
        match nsOpt with
        | none => healAux rest bd' ad' (l :: acc)
        | some ns =>
          if inArr ∧ startsQuote st ∧ endsQuote st ∧ ¬ hasColon st ∧
             startsQuote ns ∧ hasColon ns then
            healAux rest bd' 0 ((rstripP l ++ [']', ',']) :: acc)
          else if endsQuote st ∧ hasColon st ∧ ¬ (['\x22', ','].isSuffixOf st) ∧
                  startsQuote ns ∧ hasColon ns then
            healAux rest bd' ad' ((rstripP l ++ [',']) :: acc)
          else if ¬ inArr ∧ startsQuote st ∧ endsQuote st ∧ ¬ hasColon st ∧
                  startsQuote ns ∧ hasColon ns then
            healAux rest bd' ad' ((rstripP l ++ [',']) :: acc)
          else healAux rest bd' ad' (l :: acc)

def healLines (s : List Char) : List Char := joinNL (healAux (splitNL s) 0 0 [])

/-! ### Steps 5-7 -/

/-- `re.sub(r',(\s*[}\]])', r'\1', ·)`: drop a comma standing before
(whitespace and) a closer. -/
def mJ : Matcher
  | ',' :: r =>
    let w := r.takeWhile pyWs
    match r.drop w.length with
    | d :: after =>
      if d = '\x7d' ∨ d = ']' then some (w ++ [d], after) else none
    | [] => none
  | _ => none

/-- Step 6: drop lines that are a bare `,` or `,,`. -/
def dropCommaLines (s : List Char) : List Char :=
  joinNL ((splitNL s).filter (fun l => ¬(stripP l = [','] ∨ stripP l = [',', ','])))

/-- Step 7: append missing closers when openers outnumber closers. -/
def balanceBrackets (s : List Char) : List Char :=
  let ob := s.count '\x7b'
  let cb := s.count '\x7d'
  let obr := s.count '['
  let cbr := s.count ']'
  let s1 := if cb < ob then rstripP s ++ '\n' :: List.replicate (ob - cb) '\x7d' else s
  if cbr < obr then rstripP s1 ++ '\n' :: List.replicate (obr - cbr) ']' else s1

/-- Suffix starting at the first occurrence of `c`. -/
def fromFirst (c : Char) : List Char → Option (List Char)
  | [] => none
  | x :: r => if x = c then some (x :: r) else fromFirst c r

/-- Final-attempt balancing of the `content[start_idx:]` slice. -/
def balanceTail (p : List Char) : List Char :=
  let p1 :=
    if p.count '\x7d' < p.count '\x7b' then
      p ++ '\n' :: List.replicate (p.count '\x7b' - p.count '\x7d') '\x7d'
    else p
  if p1.count ']' < p1.count '[' then
    p1 ++ '\n' :: List.replicate (p1.count '[' - p1.count ']') ']'
  else p1

def wTru : List Char := "tru".data
def wTrue : List Char := "true".data
def wFals : List Char := "fals".data
def wFalse : List Char := "false".data
def wUndefined : List Char := "undefined".data
def wNull : List Char := "null".data
def wNaN : List Char := "NaN".data

/-- `repair_and_format_json` on character lists: the full pipeline of
content_formatter.py lines 340-603. -/
def repairBody (orig : List Char) : List Char :=
  match jloadsL (stripP orig) with
  | some v => pr v 0
  | none =>
    let c0 := stripP orig
    let c1 := match c0 with | '\uFEFF' :: t => t | _ => c0
    let c2 := subWord wTru wTrue c1
    let c3 := subWord wFals wFalse c2
    let c4 := subWord wUndefined wNull c3
    let c5 := subWord wNaN wNull c4
    let c6 := stripLineComments c5
    let c7 := stripBlockComments c6
    let c8 := applySub mSqKey c7
    let c9 := applySub mSqVal c8
    let d0 := scanOut c9
    let d1 := applySub mA d0
    let d2 := applySub mB d1
    let d3 := applySub mC d2
    let d4 := applySub mD d3
    let d5 := applySub mE d4
    let d6 := applySub mF d5
    let d7 := applySub mG d6
    let d8 := applySub mH d7
    let d9 := applySub mI d8
    let e0 := healLines d9
    let e1 := applySub mJ e0
    let e2 := dropCommaLines e1
    let e3 := balanceBrackets e2
    match jloadsL e3 with
    | some v => pr v 0
    | none =>
      match (match fromFirst '\x7b' e3 with | some t => some t | none => fromFirst '[' e3) with
      | some p =>
        match jloadsL (balanceTail p) with
        | some v => pr v 0
        | none => stripP e3
      | none => stripP e3

/-- `repair_and_format_json(content)`: total by construction — both
`json.loads` call sites are wrapped in `try/except` in the source, and its
only other operations are pure string transformations. -/
def repair_and_format_json (s : String) : String := String.mk (repairBody s.data)

/-- `format_json` (content_formatter.py 606-608). -/
def format_json (content : String) : String := repair_and_format_json content

/-! ## HTML tokenizer

Model of the event stream `html.parser.HTMLParser` feeds to its handlers,
for the plain-tag grammar the source exercises (entity references, comments
with embedded `>`, CDATA and malformed-markup recovery are not modelled).
A `tag/>` token produces a start event then an end event, as the default
`handle_startendtag` does. -/

inductive HTok where
  | tstart (name : List Char) (attrs : List (List Char × List Char))
  | tstop (name : List Char)
  | tdata (d : List Char)

/-- Attribute scanner: everything between the tag name and `>`.
Returns (attrs, selfClosing, rest-after-the-tag). -/
def attrLoop : Nat → List Char → (List (List Char × List Char) × Bool × List Char)
  | 0, s => ([], false, s)
  | f + 1, s =>
    match s.dropWhile pyWs with
    | [] => ([], false, [])
    | '>' :: r => ([], false, r)
    | '/' :: '>' :: r => ([], true, r)
    | c :: r =>
      let nm := (c :: r).takeWhile (fun ch => !(pyWs ch || ch == '=' || ch == '>' || ch == '/'))
      if nm = [] then
        -- stray character; skip it
        let (as, sc, rest) := attrLoop f r
        (as, sc, rest)
      else
        let r1 := ((c :: r).drop nm.length).dropWhile pyWs
        match r1 with
        | '=' :: r2 =>
          match r2.dropWhile pyWs with
          | '\x22' :: r3 =>
            let v := r3.takeWhile (· ≠ '\x22')
            let (as, sc, rest) := attrLoop f (r3.drop (v.length + 1))
            ((lowerL nm, v) :: as, sc, rest)
          | '\x27' :: r3 =>
            let v := r3.takeWhile (· ≠ '\x27')
            let (as, sc, rest) := attrLoop f (r3.drop (v.length + 1))
            ((lowerL nm, v) :: as, sc, rest)
          | r3 =>
            let v := r3.takeWhile (fun ch => !(pyWs ch || ch == '>'))
            let (as, sc, rest) := attrLoop f (r3.drop v.length)
            ((lowerL nm, v) :: as, sc, rest)
        | _ =>
          let (as, sc, rest) := attrLoop f r1
          ((lowerL nm, []) :: as, sc, rest)

def tokHTML : Nat → List Char → List HTok
  | 0, _ => []
  | _ + 1, [] => []
  | f + 1, '<' :: r =>
    match r with
    | '/' :: r1 =>
      let nm := r1.takeWhile Char.isAlphanum
      let r2 := (r1.drop nm.length).dropWhile (· ≠ '>')
      .tstop (lowerL nm) :: tokHTML f (r2.drop 1)
    | '!' :: r1 =>
      let r2 := r1.dropWhile (· ≠ '>')
      tokHTML f (r2.drop 1)
    | c :: r1 =>
      if c.isAlpha then
        let nm := (c :: r1).takeWhile Char.isAlphanum
        let (as, sc, rest) := attrLoop ((c :: r1).length) ((c :: r1).drop nm.length)
        if sc then .tstart (lowerL nm) as :: .tstop (lowerL nm) :: tokHTML f rest
        else .tstart (lowerL nm) as :: tokHTML f rest
      else .tdata ['<'] :: tokHTML f r
    | [] => .tdata ['<'] :: []
  | f + 1, s =>
    let d := s.takeWhile (· ≠ '<')
    .tdata d :: tokHTML f (s.drop d.length)

def tokenizeHTML (s : List Char) : List HTok := tokHTML s.length s

/-! ## `HTMLFormatter` fallback and `format_html`

`format_html` first tries BeautifulSoup; that import is an external
capability (spec section 4.3) and is modelled as unavailable, so the
embedded `format_html` is the `HTMLFormatter` fallback path
(content_formatter.py 12-82, 195-198).  The outer `except` is unreachable
in the model because the formatter is total. -/

def selfClosingTags : List (List Char) :=
  ["br".data, "hr".data, "img".data, "input".data, "meta".data, "link".data,
   "area".data, "base".data, "col".data, "embed".data, "source".data,
   "track".data, "wbr".data]

def noDedentTags : List (List Char) :=
  ["br".data, "hr".data, "img".data, "input".data, "meta".data, "link".data]

structure FmtSt where
  out : List (List Char)   -- output lines, reversed
  indentLevel : Nat
  inScript : Bool
  inStyle : Bool

def attrStr (attrs : List (List Char × List Char)) : List Char :=
  match attrs with
  | [] => []
  | _ =>
    let parts := attrs.map (fun (n, v) =>
      if v ≠ [] then n ++ '=' :: '\x22' :: v ++ ['\x22'] else n)
    ' ' :: joinSep parts
where
  joinSep : List (List Char) → List Char
    | [] => []
    | [p] => p
    | p :: ps => p ++ ' ' :: joinSep ps

def indentSp (n : Nat) : List Char := List.replicate (n * 2) ' '

def fmtStart (st : FmtSt) (tag : List Char) (attrs : List (List Char × List Char)) : FmtSt :=
  let ind := indentSp st.indentLevel
  let st := if tag = "script".data ∨ tag = "style".data then
      { st with inScript := tag = "script".data, inStyle := tag = "style".data }
    else st
  let astr := attrStr attrs
  if selfClosingTags.contains tag then
    { st with out := (ind ++ '<' :: tag ++ astr ++ [' ', '/', '>']) :: st.out }
  else
    let st := { st with out := (ind ++ '<' :: tag ++ astr ++ ['>']) :: st.out }
    if ¬(tag = "script".data ∨ tag = "style".data ∨ tag = "textarea".data) then
      { st with indentLevel := st.indentLevel + 1 }
    else st

def fmtStop (st : FmtSt) (tag : List Char) : FmtSt :=
  let st := if tag = "script".data ∨ tag = "style".data then
      { st with inScript := false, inStyle := false }
    else st
  if ¬ noDedentTags.contains tag then
    let lvl := st.indentLevel - 1
    { st with indentLevel := lvl,
              out := (indentSp lvl ++ '<' :: '/' :: tag ++ ['>']) :: st.out }
  else st

def fmtData (st : FmtSt) (d : List Char) : FmtSt :=
  if stripP d = [] then st
  else
    let ind := indentSp st.indentLevel
    let lines := (splitNL d).filter (fun l => stripP l ≠ [])
    if st.inScript ∨ st.inStyle then
      { st with out := (lines.map (fun l => ind ++ l)).reverse ++ st.out }
    else
      { st with out := (lines.map (fun l => ind ++ stripP l)).reverse ++ st.out }

def fmtRun : List HTok → FmtSt → FmtSt
  | [], st => st
  | .tstart t a :: rest, st => fmtRun rest (fmtStart st t a)
  | .tstop t :: rest, st => fmtRun rest (fmtStop st t)
  | .tdata d :: rest, st => fmtRun rest (fmtData st d)

def format_html (content : String) : String :=
  let st := fmtRun (tokenizeHTML content.data)
    { out := [], indentLevel := 0, inScript := false, inStyle := false }
  String.mk (joinNL st.out.reverse)

/-! ## Simple pretty-printers (content_formatter.py 611-727) -/

/-- `format_markdown`. -/
def format_markdown (content : String) : String :=
  String.mk (joinNL (go (splitNL content.data) false []).reverse)
where
  go : List (List Char) → Bool → List (List Char) → List (List Char)
    | [], _, acc => acc
    | l :: rest, prevEmpty, acc =>
      let st := stripP l
      if startsHash st then
        let acc1 := if acc ≠ [] ∧ ¬ prevEmpty then [] :: acc else acc
        go rest true (rstripP l :: acc1)
      else if fence.isPrefixOf st then
        let acc1 := if ¬ prevEmpty then [] :: acc else acc
        go rest true (rstripP l :: acc1)
      else if st ≠ [] then
        go rest false (rstripP l :: acc)
      else
        let acc1 := if !prevEmpty || (match acc with | a :: _ => !a.isEmpty | [] => false) then
            [] :: acc
          else acc
        go rest true acc1
  startsHash : List Char → Bool
    | '#' :: _ => true
    | _ => false
  fence : List Char := ['`', '`', '`']

/-- `format_xml`: the DOM pretty-printer (`xml.dom.minidom`) is an external
capability, so the fallback bracket-depth line indenter (lines 652-671) is
the modelled behaviour.  No claim depends on `format_xml`'s value. -/
def format_xml (content : String) : String :=
  String.mk (joinNL (go (splitNL content.data) 0 []).reverse)
where
  go : List (List Char) → Nat → List (List Char) → List (List Char)
    | [], _, acc => acc
    | l :: rest, ind, acc =>
      let st := stripP l
      if st = [] then go rest ind acc
      else if ['<', '/'].isPrefixOf st then
        go rest (ind - 1) ((indentSp (ind - 1) ++ st) :: acc)
      else if (match st with | '<' :: _ => true | _ => false) &&
              !(['/', '>'].isSuffixOf st) then
        go rest (ind + 1) ((indentSp ind ++ st) :: acc)
      else go rest ind ((indentSp ind ++ st) :: acc)

/-- Quote-aware comma split of one CSV line (lines 684-700): the final
field is kept only when nonempty as a raw string. -/
def csvParts (l : List Char) : List (List Char) :=
  go l false [] []
where
  go : List Char → Bool → List Char → List (List Char) → List (List Char)
    | [], _, cur, parts =>
      (if cur ≠ [] then parts ++ [stripP cur] else parts)
    | c :: rest, inQ, cur, parts =>
      if c = '\x22' then go rest (!inQ) (cur ++ [c]) parts
      else if c = ',' ∧ ¬ inQ then go rest inQ [] (parts ++ [stripP cur])
      else go rest inQ (cur ++ [c]) parts

def joinCommaSp : List (List Char) → List Char
  | [] => []
  | [p] => p
  | p :: ps => p ++ ',' :: ' ' :: joinCommaSp ps

/-- `format_csv`. -/
def format_csv (content : String) : String :=
  String.mk (joinNL ((splitNL content.data).map (fun l =>
    if stripP l = [] then [] else joinCommaSp (csvParts l))))

/-- `format_text`. -/
def format_text (content : String) : String :=
  String.mk (joinNL (go (splitNL content.data) false []).reverse)
where
  go : List (List Char) → Bool → List (List Char) → List (List Char)
    | [], _, acc => acc
    | l :: rest, prevEmpty, acc =>
      if stripP l ≠ [] then go rest false (rstripP l :: acc)
      else
        let acc1 := if !prevEmpty || (match acc with | a :: _ => !a.isEmpty | [] => false) then
            [] :: acc
          else acc
        go rest true acc1

def endsWithL (l suf : List Char) : Bool := suf.isSuffixOf l

def sHtmlMark : List Char := "<html".data
def sBodyMark : List Char := "<body".data
def sDivMark : List Char := "<div".data
def sXmlMark : List Char := "<?xml".data

/-- `content.lower().strip()`. -/
def contentSniff (content : String) : List Char := stripP (lowerL content.data)

/-- Leading `{` or `[` after trimming. -/
def sniffJsonB (content : String) : Bool :=
  match contentSniff content with
  | '\x7b' :: _ => true
  | '[' :: _ => true
  | _ => false

/-- `'<html' in cl or '<body' in cl or '<div' in cl` (no-filename branch). -/
def marker3B (content : String) : Bool :=
  hasSub sHtmlMark (contentSniff content) || hasSub sBodyMark (contentSniff content) ||
    hasSub sDivMark (contentSniff content)

/-- `'<html' in cl or '<body' in cl` (unrecognized-extension branch). -/
def marker2B (content : String) : Bool :=
  hasSub sHtmlMark (contentSniff content) || hasSub sBodyMark (contentSniff content)

def xmlSniffB (content : String) : Bool :=
  sXmlMark.isPrefixOf (contentSniff content)

/-- Extensions `format_content` maps directly to a formatter. -/
def recognizedExtB (filename : String) : Bool :=
  endsWithL (lowerL filename.data) (".html".data) ||
  endsWithL (lowerL filename.data) (".htm".data) ||
  endsWithL (lowerL filename.data) (".json".data) ||
  endsWithL (lowerL filename.data) (".md".data) ||
  endsWithL (lowerL filename.data) (".markdown".data) ||
  endsWithL (lowerL filename.data) (".xml".data) ||
  endsWithL (lowerL filename.data) (".csv".data) ||
  endsWithL (lowerL filename.data) (".txt".data) ||
  endsWithL (lowerL filename.data) (".text".data)

/-- `format_content` (content_formatter.py 730-779). -/
def format_content (content : String) (filename : String) : String :=
  if filename == "" && sniffJsonB content then
    format_json content
  else if filename == "" && marker3B content then
    format_html content
  else if filename == "" && xmlSniffB content then
    format_xml content
  else
    let fl := lowerL filename.data
    if endsWithL fl (".html".data) || endsWithL fl (".htm".data) then format_html content
    else if endsWithL fl (".json".data) then format_json content
    else if endsWithL fl (".md".data) || endsWithL fl (".markdown".data) then
      format_markdown content
    else if endsWithL fl (".xml".data) then format_xml content
    else if endsWithL fl (".csv".data) then format_csv content
    else if endsWithL fl (".txt".data) || endsWithL fl (".text".data) then format_text content
    else if sniffJsonB content then format_json content
    else if marker2B content then format_html content
    else if xmlSniffB content then format_xml content
    else format_text content

/-! ## Record extraction (content_parser.py)

Records are Python dicts with heterogeneous values, embedded as `Json`
objects; the result sequence of each extractor is a `List Json`.  The
`**obj` spread in `parse_mixed_content` raises `TypeError` on a non-mapping,
so that function (and `parse_file_content`) return `Except PyErr`. -/

def toListJ : JList → List Json
  | .nil => []
  | .cons x xs => x :: toListJ xs

def insertAll : JPairs → JPairs → JPairs
  | acc, .nil => acc
  | acc, .cons k v ps => insertAll (insertKey acc k v) ps

def kTy : List Char := "type".data

/-! ### `parse_markdown` (lines 220-280) -/

def startsHashB (l : List Char) : Bool :=
  match l with
  | '#' :: _ => true
  | _ => false

/-- The heading record `parse_markdown` emits for a source line `l`. -/
def mdHeadRec (l : List Char) : Json :=
  jobj [(kTy, .str ("heading".data)),
        ("level".data, .int ((l.takeWhile (· = '#')).length : Int)),
        ("text".data, .str (stripP ((stripP l).dropWhile (· = '#'))))]

/-- Leftmost `\[([^\]]+)\]\(([^\)]+)\)` match: (text, url). -/
def findMdLink : List Char → Option (List Char × List Char)
  | [] => none
  | '[' :: r =>
    let t := r.takeWhile (· ≠ ']')
    if t ≠ [] ∧ ((r.drop t.length).take 1 = [']']) then
      match r.drop (t.length + 1) with
      | '(' :: r2 =>
        let u := r2.takeWhile (· ≠ ')')
        if u ≠ [] ∧ ((r2.drop u.length).take 1 = [')']) then some (t, u)
        else findMdLink r
      | _ => findMdLink r
    else findMdLink r
  | _ :: r => findMdLink r

def mdState := Option (List Char) × List (List Char) × Bool

/-- The line loop of `parse_markdown`: state is
(`current_section`, `current_code_block`, `in_code_block`). -/
def mdGo : List (List Char) → Option (List Char) → List (List Char) → Bool → List Json
  | [], _, _, _ => []
  | l :: rest, curSec, curCode, inCode =>
    let st := stripP l
    if startsHashB st then
      mdHeadRec l :: mdGo rest curSec curCode inCode
    else if ['`', '`', '`'].isPrefixOf st then
      if inCode then
        jobj [(kTy, .str ("code_block".data)),
              ("language".data, .str (match curSec with
                | some cs => if cs = [] then "text".data else cs
                | none => "text".data)),
              ("content".data, .str (joinNL curCode))] ::
          mdGo rest none [] false
      else
        let sec := stripP (st.drop 3)
        mdGo rest (some (if sec = [] then "text".data else sec)) curCode true
    else if inCode then mdGo rest curSec (curCode ++ [l]) true
    else if (match st with | '-' :: _ => true | '*' :: _ => true | _ => false) then
      jobj [(kTy, .str ("list_item".data)), ("text".data, .str (stripP (st.drop 1)))] ::
        mdGo rest curSec curCode inCode
    else if l.any (· = '[') ∧ hasSub [']', '('] l then
      match findMdLink l with
      | some (t, u) =>
        jobj [(kTy, .str ("link".data)), ("text".data, .str t), ("url".data, .str u)] ::
          mdGo rest curSec curCode inCode
      | none => mdGo rest curSec curCode inCode
    else if st ≠ [] then
      jobj [(kTy, .str ("paragraph".data)), ("text".data, .str st)] ::
        mdGo rest curSec curCode inCode
    else mdGo rest curSec curCode inCode

def parse_markdown (content : String) : List Json :=
  mdGo (splitNL content.data) none [] false

/-! ### `parse_csv_content` (lines 283-309)

`csv.DictReader` with the default dialect, modelled for `\n` row
separators, `"` quoting with doubling, and `,` delimiters.  Blank rows are
skipped; short rows are padded with `None` (`Json.null`); surplus cells
would go under the `None` restkey, represented here by the literal key
`"None"` (no claim touches that corner).  The `except` fallbacks of the
source are unreachable in the model because this reader is total. -/

def csvRowsGo : Nat → List Char → Bool → List Char → List (List Char) →
    List (List (List Char)) → List (List (List Char))
  | 0, _, _, _, _, rows => rows
  | _ + 1, [], _, cur, fields, rows =>
    if cur = [] ∧ fields = [] then rows
    else rows ++ [fields ++ [cur]]
  | f + 1, c :: rest, inQ, cur, fields, rows =>
    if inQ then
      if c = '\x22' then
        match rest with
        | '\x22' :: rest2 => csvRowsGo f rest2 true (cur ++ ['\x22']) fields rows
        | _ => csvRowsGo f rest false cur fields rows
      else csvRowsGo f rest true (cur ++ [c]) fields rows
    else
      if c = '\x22' ∧ cur = [] then csvRowsGo f rest true cur fields rows
      else if c = ',' then csvRowsGo f rest false [] (fields ++ [cur]) rows
      else if c = '\n' then
        if cur = [] ∧ fields = [] then csvRowsGo f rest false [] [] (rows ++ [[]])
        else csvRowsGo f rest false [] [] (rows ++ [fields ++ [cur]])
      else csvRowsGo f rest false (cur ++ [c]) fields rows

def csvRows (s : List Char) : List (List (List Char)) :=
  if s = [] then [] else csvRowsGo (s.length + 1) s false [] [] []

def zipRow : List (List Char) → List (List Char) → JPairs
  | [], extra =>
    match extra with
    | [] => .nil
    | _ => .cons ("None".data) (.arr (ofList (extra.map Json.str))) .nil
  | h :: hs, [] => .cons h .null (zipRow hs [])
  | h :: hs, v :: vs => .cons h (.str v) (zipRow hs vs)

def parse_csv_content (content : String) : List Json :=
  match csvRows content.data with
  | [] => []
  | hdr :: rows =>
    (rows.filter (fun r => r ≠ [])).map (fun r => Json.obj (zipRow hdr r))

/-! ### `parse_key_value` (lines 312-332) -/

/-- `re.findall(r'([^:=\n]+)SEP\s*([^\n]+)', ·)` scan for `SEP` `:` or `=`.
A match whose value region is pure whitespace before the end of input is
dropped here instead of being emitted and then filtered — the filtered
output is identical. -/
def kvScan (sep : Char) : Nat → List Char → List (List Char × List Char)
  | 0, _ => []
  | _ + 1, [] => []
  | f + 1, s@(_ :: tl) =>
    let key := s.takeWhile (fun c => ¬(c = ':' ∨ c = '=' ∨ c = '\n'))
    if key ≠ [] ∧ ((s.drop key.length).take 1 = [sep]) then
      let r := s.drop (key.length + 1)
      let w := r.takeWhile pyWs
      match r.drop w.length with
      | [] => kvScan sep f tl
      | rv =>
        let v := rv.takeWhile (· ≠ '\n')
        (key, v) :: kvScan sep f (rv.drop v.length)
    else kvScan sep f tl

def parse_key_value (content : String) : List Json :=
  let raw := kvScan ':' content.data.length content.data ++
             kvScan '=' content.data.length content.data
  (raw.filterMap (fun (k, v) =>
    let k' := stripP k
    let v' := stripP v
    if k' ≠ [] ∧ v' ≠ [] then
      some (jobj [("key".data, .str k'), ("value".data, .str v')])
    else none))

/-! ### `HTMLDataExtractor` and `parse_html` (lines 15-217)

`safe_value` of the source is the identity on the string/int values this
extractor produces (its NaN/Infinity branches only concern floats, which
never arise from the tokenizer), so it is not reified. -/

def getAttr (attrs : List (List Char × List Char)) (k : List Char) : List Char :=
  match attrs.find? (fun p => p.1 = k) with
  | some p => p.2
  | none => []

def insertKV : List (List Char × List Char) → List Char → List Char →
    List (List Char × List Char)
  | [], k, v => [(k, v)]
  | (k', v') :: ps, k, v =>
    if k' = k then (k', v) :: ps else (k', v') :: insertKV ps k v

/-- `dict(attrs)`: later duplicates override in place. -/
def dictAttrs (attrs : List (List Char × List Char)) : List (List Char × List Char) :=
  attrs.foldl (fun acc p => insertKV acc p.1 p.2) []

structure ExSt where
  headings : List (Int × List Char)
  paragraphs : List (List Char)
  links : List (List Char × List Char)     -- (url, text)
  images : List (List Char × List Char)    -- (src, alt)
  tables : List (List (List (List Char)))
  lists : List (List (List Char))
  metadata : JPairs
  currentTag : Option (List Char)
  currentAttrs : List (List Char × List Char)
  currentTable : List (List (List Char))
  currentRow : List (List Char)
  currentList : List (List Char)

def exInit : ExSt :=
  { headings := [], paragraphs := [], links := [], images := [], tables := [],
    lists := [], metadata := .nil, currentTag := none, currentAttrs := [],
    currentTable := [], currentRow := [], currentList := [] }

def headingTags : List (List Char) :=
  ["h1".data, "h2".data, "h3".data, "h4".data, "h5".data, "h6".data]

def exStart (st : ExSt) (tag : List Char) (attrs : List (List Char × List Char)) : ExSt :=
  let st := { st with currentTag := some tag, currentAttrs := dictAttrs attrs }
  if tag = "table".data then { st with currentTable := [] }
  else if tag = "tr".data then { st with currentRow := [] }
  else if tag = "a".data then
    let href := getAttr attrs ("href".data)
    if href ≠ [] then { st with links := st.links ++ [(href, [])] } else st
  else if tag = "img".data then
    { st with images := st.images ++ [(getAttr attrs ("src".data), getAttr attrs ("alt".data))] }
  else if tag = "ul".data ∨ tag = "ol".data then { st with currentList := [] }
  else st

def exStop (st : ExSt) (tag : List Char) : ExSt :=
  if tag = "tr".data then
    if st.currentRow ≠ [] then
      { st with currentTable := st.currentTable ++ [st.currentRow], currentRow := [] }
    else st
  else if tag = "table".data then
    let st := if st.currentTable ≠ [] then { st with tables := st.tables ++ [st.currentTable] }
      else st
    { st with currentTable := [] }
  else if tag = "ul".data ∨ tag = "ol".data then
    let st := if st.currentList ≠ [] then { st with lists := st.lists ++ [st.currentList] }
      else st
    { st with currentList := [] }
  else st

def setLastText : List (List Char × List Char) → List Char → List (List Char × List Char)
  | [], _ => []
  | [(u, _)], t => [(u, t)]
  | p :: ps, t => p :: setLastText ps t

def exData (st : ExSt) (d : List Char) : ExSt :=
  let text := stripP d
  if text = [] then st
  else
    match st.currentTag with
    | none => st
    | some tag =>
      if headingTags.contains tag then
        let lv : Int := ((match tag with | _ :: d2 :: _ => d2.toNat | _ => 49) - 48 : Int)
        { st with headings := st.headings ++ [(lv, text)] }
      else if tag = "p".data then { st with paragraphs := st.paragraphs ++ [text] }
      else if tag = "td".data ∨ tag = "th".data then
        { st with currentRow := st.currentRow ++ [text] }
      else if tag = "li".data then { st with currentList := st.currentList ++ [text] }
      else if tag = "a".data then
        if st.links ≠ [] then { st with links := setLastText st.links text } else st
      else if tag = "title".data then
        { st with metadata := insertKey st.metadata ("title".data) (.str text) }
      else if tag = "meta".data then
        let nm := getAttr st.currentAttrs ("name".data)
        if nm ≠ [] then
          { st with metadata := insertKey st.metadata nm (.str (getAttr st.currentAttrs ("content".data))) }
        else st
      else st

def exRun : List HTok → ExSt → ExSt
  | [], st => st
  | .tstart t a :: rest, st => exRun rest (exStart st t a)
  | .tstop t :: rest, st => exRun rest (exStop st t)
  | .tdata d :: rest, st => exRun rest (exData st d)

def rowDict : Nat → List (List Char) → List (List Char) → JPairs
  | _, _, [] => .nil
  | i, hdrs, cell :: cells =>
    let key := match hdrs.drop i with
      | h :: _ => h
      | [] => "column_".data ++ natChars i
    insertKey (rowDict (i + 1) hdrs cells |> fun rest => rest) key (.str cell)

def tableRecs : Nat → List (List (List (List Char))) → List Json
  | _, [] => []
  | idx, table :: more =>
    (match table with
     | [] => []
     | hdrs :: rows =>
       rows.map (fun row =>
         Json.obj (insertAll (ofPairs [(kTy, .str ("table_row".data)),
                                       ("table_index".data, .int (idx : Int))])
                            (buildRow 0 hdrs row)))) ++ tableRecs (idx + 1) more
where
  buildRow : Nat → List (List Char) → List (List Char) → JPairs
    | _, _, [] => .nil
    | i, hdrs, cell :: cells =>
      let key := match hdrs.drop i with
        | h :: _ => h
        | [] => "column_".data ++ natChars i
      insertKey (buildRow (i + 1) hdrs cells) key (.str cell)

def listRecs : Nat → List (List (List Char)) → List Json
  | _, [] => []
  | idx, items :: more =>
    items.map (fun it =>
      jobj [(kTy, .str ("list_item".data)), ("list_index".data, .int (idx : Int)),
            ("text".data, .str it)]) ++ listRecs (idx + 1) more

def parse_html (content : String) : List Json :=
  let st := exRun (tokenizeHTML content.data) exInit
  (st.headings.map (fun (lv, t) =>
    jobj [(kTy, .str ("heading".data)), ("level".data, .int lv), ("text".data, .str t)])) ++
  (st.paragraphs.map (fun t => jobj [(kTy, .str ("paragraph".data)), ("text".data, .str t)])) ++
  (st.links.map (fun (u, t) =>
    jobj [(kTy, .str ("link".data)), ("url".data, .str u), ("text".data, .str t)])) ++
  (st.images.map (fun (s, a) =>
    jobj [(kTy, .str ("image".data)), ("src".data, .str s), ("alt".data, .str a)])) ++
  tableRecs 0 st.tables ++
  listRecs 0 st.lists ++
  (match st.metadata with
   | .nil => []
   | md => [Json.obj (insertAll (ofPairs [(kTy, .str ("metadata".data))]) md)])

/-! ### `parse_mixed_content` (lines 335-400) -/

/-- One candidate of `\{[^{}]*(?:\{[^{}]*\}[^{}]*)*\}` anchored at the
current position (which must hold `{`): returns (matched text, rest). -/
def jcMatchAt (s : List Char) : Option (List Char × List Char) :=
  match s with
  | '\x7b' :: r =>
    let t0 := r.takeWhile (fun c => ¬(c = '\x7b' ∨ c = '\x7d'))
    grp (r.drop t0.length) ('\x7b' :: t0) r.length
  | _ => none
where
  grp : List Char → List Char → Nat → Option (List Char × List Char)
    | _, _, 0 => none
    | s2, accum, f + 1 =>
      match s2 with
      | '\x7d' :: after => some (accum ++ ['\x7d'], after)
      | '\x7b' :: r2 =>
        let t1 := r2.takeWhile (fun c => ¬(c = '\x7b' ∨ c = '\x7d'))
        (match r2.drop t1.length with
         | '\x7d' :: r4 =>
           let t2 := r4.takeWhile (fun c => ¬(c = '\x7b' ∨ c = '\x7d'))
           grp (r4.drop t2.length) (accum ++ '\x7b' :: t1 ++ '\x7d' :: t2) f
         | _ => none)
      | _ => none

/-- `re.finditer` of the candidate pattern, with each match fed to
`json.loads`; parse failures are skipped. -/
def jsonCandidates : Nat → List Char → List Json
  | 0, _ => []
  | _ + 1, [] => []
  | f + 1, c :: rest =>
    match jcMatchAt (c :: rest) with
    | some (txt, after) =>
      match jloadsL txt with
      | some v => v :: jsonCandidates f after
      | none => jsonCandidates f after
    | none => jsonCandidates f rest

/-- `{"type": "json_object", **obj}` for each whole-parse/candidate value;
a non-mapping raises `TypeError`. -/
def spreadJsonObjs : List Json → Except PyErr (List Json)
  | [] => .ok []
  | .obj ps :: rest =>
    (spreadJsonObjs rest).map (fun rs =>
      Json.obj (insertAll (ofPairs [(kTy, .str ("json_object".data))]) ps) :: rs)
  | _ :: _ => .error .typeError

def textLineRecs : Nat → List (List Char) → List Json
  | _, [] => []
  | i, l :: rest =>
    if stripP l ≠ [] then
      jobj [(kTy, .str ("text_line".data)), ("line_number".data, .int (i + 1 : Int)),
            ("content".data, .str (stripP l))] :: textLineRecs (i + 1) rest
    else textLineRecs (i + 1) rest

/-- The optional HTML contribution of `parse_mixed_content`. -/
def mixedHtml (content : String) (spread : List Json) : List Json :=
  if hasSub sHtmlMark (lowerL content.data) ∨ hasSub sBodyMark (lowerL content.data) ∨
     hasSub sDivMark (lowerL content.data) then
    spread ++ parse_html content
  else spread

/-- The optional CSV contribution of `parse_mixed_content`. -/
def mixedCsv (content : String) (spread : List Json) : List Json :=
  if content.data.any (· == ',') && content.data.any (· == '\n') &&
     (splitNL content.data).length > 1 &&
     (match splitNL content.data with | l0 :: _ => l0.any (· == ',') | [] => false) then
    mixedHtml content spread ++ parse_csv_content content
  else mixedHtml content spread

/-- All structured contributions of `parse_mixed_content`. -/
def mixedKv (content : String) (spread : List Json) : List Json :=
  mixedCsv content spread ++ parse_key_value content

/-- Steps 2-5 of `parse_mixed_content` once the JSON spread has succeeded:
HTML, CSV and key-value contributions, then the raw-text fallback. -/
def mixedAssemble (content : String) (spread : List Json) : List Json :=
  if (mixedKv content spread).isEmpty then textLineRecs 0 (splitNL content.data)
  else mixedKv content spread

/-- The whole-content JSON stage of `parse_mixed_content`. -/
def mixedJsonObjects (content : String) : List Json :=
  match jloadsL content.data with
  | some (.arr xs) => toListJ xs
  | some (.obj ps) => [.obj ps]
  | some _ => []
  | none => jsonCandidates content.data.length content.data

def parse_mixed_content (content : String) (filename : String) : Except PyErr (List Json) :=
  match spreadJsonObjs (mixedJsonObjects content) with
  | .error e => .error e
  | .ok spread => .ok (mixedAssemble content spread)

/-! ### `parse_file_content` (lines 403-437) -/

def pdfNote : List Char :=
  "PDF parsing requires additional libraries. Content treated as text.".data

def parse_file_content (content : String) (filename : String) : Except PyErr (List Json) :=
  let fl := lowerL filename.data
  if endsWithL fl (".html".data) ∨ endsWithL fl (".htm".data) then .ok (parse_html content)
  else if endsWithL fl (".md".data) ∨ endsWithL fl (".markdown".data) then
    .ok (parse_markdown content)
  else if endsWithL fl (".csv".data) then .ok (parse_csv_content content)
  else if endsWithL fl (".json".data) then
    match jloadsL content.data with
    | some (.arr xs) => .ok (toListJ xs)
    | some (.obj ps) => .ok [.obj ps]
    | _ => parse_mixed_content content filename
  else if endsWithL fl (".pdf".data) then
    .ok [jobj [(kTy, .str ("pdf_content".data)),
               ("note".data, .str pdfNote),
               ("content".data, .str (content.data.take 1000))]]
  else parse_mixed_content content filename

/-! ## Predicates and measures used by the verification -/

/-! Keys of well-formed parser output are pairwise distinct: exactly what
the dict-building `insertKey` guarantees. -/
mutual
inductive WFJ : Json → Prop where
  | null : WFJ .null
  | bool {b} : WFJ (.bool b)
  | int {n} : WFJ (.int n)
  | str {s} : WFJ (.str s)
  | arr {xs} : WFL xs → WFJ (.arr xs)
  | obj {ps} : WFP ps → WFJ (.obj ps)
inductive WFL : JList → Prop where
  | nil : WFL .nil
  | cons {x xs} : WFJ x → WFL xs → WFL (.cons x xs)
inductive WFP : JPairs → Prop where
  | nil : WFP .nil
  | cons {k v ps} : WFJ v → WFP ps → k ∉ ps.keys → WFP (.cons k v ps)
end

/-! Fuel measure: `pVal fuel` succeeds on printed output once
`jsize v ≤ fuel`. -/
mutual
def jsize : Json → Nat
  | .null => 1
  | .bool _ => 1
  | .int _ => 1
  | .str _ => 1
  | .arr xs => 2 + jsizeL xs
  | .obj ps => 2 + jsizeP ps
def jsizeL : JList → Nat
  | .nil => 0
  | .cons x xs => 1 + jsize x + jsizeL xs
def jsizeP : JPairs → Nat
  | .nil => 0
  | .cons _ v ps => 1 + jsize v + jsizeP ps
end

/-- The printed form of a value inside a container is always followed by
`,` or by the newline before the closing bracket; the empty rest is the
top-level case. -/
def okAfter (rest : List Char) : Prop :=
  match rest with
  | [] => True
  | c :: _ => c = ',' ∨ c = '\n'

def appendL : JList → JList → JList
  | acc, .nil => acc
  | acc, .cons x xs => appendL (snocL acc x) xs

def appendP : JPairs → JPairs → JPairs
  | .nil, ps => ps
  | .cons k v acc, ps => .cons k v (appendP acc ps)

/-- A bracket-free character: none of the four bracket characters that the
balance claim counts. -/
def noBr (c : Char) : Prop := c ≠ '\x7b' ∧ c ≠ '\x7d' ∧ c ≠ '[' ∧ c ≠ ']'

/-! Values whose strings and keys contain no bracket characters: for these
the printed form has exactly matching bracket counts. -/
mutual
inductive NBJ : Json → Prop where
  | null : NBJ .null
  | bool {b} : NBJ (.bool b)
  | int {n} : NBJ (.int n)
  | str {s} : (∀ c ∈ s, noBr c) → NBJ (.str s)
  | arr {xs} : NBL xs → NBJ (.arr xs)
  | obj {ps} : NBP ps → NBJ (.obj ps)
inductive NBL : JList → Prop where
  | nil : NBL .nil
  | cons {x xs} : NBJ x → NBL xs → NBL (.cons x xs)
inductive NBP : JPairs → Prop where
  | nil : NBP .nil
  | cons {k v ps} : (∀ c ∈ k, noBr c) → NBJ v → NBP ps → NBP (.cons k v ps)
end

/-- Whole-content JSON parse does not produce an array with a non-mapping
element — the one situation where `parse_mixed_content`'s
`{"type": "json_object", **obj}` raises `TypeError`. -/
def mixedJsonSafe (content : String) : Bool :=
  match jloadsL content.data with
  | some (.arr xs) => (toListJ xs).all (fun v => match v with | .obj _ => true | _ => false)
  | _ => true

/-- Extensions that `parse_file_content` routes away from the mixed-content
path. -/
def parseExtB (filename : String) : Bool :=
  endsWithL (lowerL filename.data) (".html".data) ||
  endsWithL (lowerL filename.data) (".htm".data) ||
  endsWithL (lowerL filename.data) (".md".data) ||
  endsWithL (lowerL filename.data) (".markdown".data) ||
  endsWithL (lowerL filename.data) (".csv".data) ||
  endsWithL (lowerL filename.data) (".json".data) ||
  endsWithL (lowerL filename.data) (".pdf".data)

/-- A record carrying a non-empty string under `"type"`. -/
def hasTypeField (r : Json) : Prop :=
  ∃ ps s, r = Json.obj ps ∧ lookupKey ps kTy = some (.str s) ∧ s ≠ []

/-- The `pdf_content` record of the `.pdf` branch. -/
def pdfRec (content : String) : Json :=
  jobj [(kTy, .str ("pdf_content".data)),
        ("note".data, .str pdfNote),
        ("content".data, .str (content.data.take 1000))]

/-! ## Concrete claim inputs -/

def inC1 : String := "\x7d"

def sC1w : String := "[1, [2], \x7b\x7d]"

def vC1w : Json := jarr [.int 1, jarr [.int 2], jobj []]

def inC3content : String := "a,b\n1,2"

def inC3file : String := "t.csv"

def recC3 : JPairs := ofPairs [("a".data, .str ("1".data)), ("b".data, .str ("2".data))]

def inC3w : String := "hello *world*"

def fnC3w : String := "notes.md"

def inC4 : String := "\n"

def inC4w : String := "plain text"

def sC5w : String := " [1, \x7b\"a\": null, \"b\": \"x\"\x7d, true] "

def vC5w : Json :=
  jarr [.int 1, jobj [("a".data, .null), ("b".data, .str ("x".data))], .bool true]

def inC6 : String := "\x7b\"a\":[1,2,3"

def vC6 : Json := jobj [("a".data, jarr [.int 1, .int 2, .int 3])]

def inC7 : String := "\x7b\"a\":1 \"b\":2\x7d"

def vC7 : Json := jobj [("a".data, .int 1), ("b".data, .int 2)]

def inC8 : String := "<div>x</div>"

def fnC8 : String := "a.xyz"

def inC8w : String := "intro <div>x</div>"

def inC9 : String := "  # Hi"

def lineC9 : List Char := inC9.data

def inC9w : String := "## Two words"

def inC10w : String := "hello"

def fnC10w : String := "doc.PDF"

/-! # Claim theorems and supporting lemmas -/

/-- C2: `repair_and_format_json` terminates and returns a string on every
input; the embedding is total because each `json.loads` call site models
the source's `try/except` as a match on `Option`, and every other step is a
pure string transformation. -/
theorem claim_C2 (s : String) : ∃ t : String, repair_and_format_json s = t :=
  ⟨repair_and_format_json s, rfl⟩

/-- C6: repairing the truncated input `{"a":[1,2,3` yields a string that
parses as JSON to the object `{"a": [1, 2, 3]}`. -/
theorem claim_C6 : json_loads (repair_and_format_json inC6) = .ok vC6 := rfl

/-- C7: repairing `{"a":1 "b":2}` (missing comma) yields a string that
parses as JSON to the object `{"a": 1, "b": 2}`. -/
theorem claim_C7 : json_loads (repair_and_format_json inC7) = .ok vC7 := rfl

/-- C1 counterexample: on input `}` the output of `repair_and_format_json`
is `}` itself, with zero `{` and one `}` — the bracket counts are not
equal. -/
theorem claim_C1_cx :
    ¬(((repair_and_format_json inC1).data.count '\x7b' =
        (repair_and_format_json inC1).data.count '\x7d') ∧
      ((repair_and_format_json inC1).data.count '[' =
        (repair_and_format_json inC1).data.count ']')) := by decide

/-- C3 counterexample: for CSV input the records are the raw
`csv.DictReader` row dicts, which carry no `type` field at all. -/
theorem claim_C3_cx :
    parse_file_content inC3content inC3file = .ok [Json.obj recC3] ∧
    lookupKey recC3 kTy = none :=
  ⟨rfl, rfl⟩

/-- C4 counterexample: the whitespace-only content `"\n"` is a non-empty
string, yet `parse_file_content` returns the empty record sequence for it
(no extractor fires and every line is blank, so even the `text_line`
fallback emits nothing). -/
theorem claim_C4_cx : inC4 ≠ "" ∧ parse_file_content inC4 "" = .ok [] :=
  ⟨by decide, rfl⟩

/-- C8 counterexample: `<div>x</div>` under the unrecognized extension
`a.xyz` satisfies the claim's hypotheses (no recognized extension, content
does not start with `{`/`[`, contains `<div`), yet `format_content` returns
the plain-text formatting, not `format_html` — the `<div` sniff exists only
in the empty-filename branch. -/
theorem claim_C8_cx :
    recognizedExtB fnC8 = false ∧ sniffJsonB inC8 = false ∧ marker3B inC8 = true ∧
    format_content inC8 fnC8 ≠ format_html inC8 :=
  ⟨rfl, rfl, rfl, by decide⟩

/-- C9 counterexample: for the indented heading line `"  # Hi"` the source
computes the level from the raw line (`len(line) - len(line.lstrip('#'))`),
giving 0, while the ATX marker of the stripped line has one `#`. -/
theorem claim_C9_cx :
    parse_markdown inC9 = [mdHeadRec lineC9] ∧
    (match mdHeadRec lineC9 with
      | .obj ps => lookupKey ps ("level".data)
      | _ => none) = some (.int 0) ∧
    ((stripP lineC9).takeWhile (· = '#')).length = 1 :=
  ⟨rfl, rfl, rfl⟩

/-- A list ending in `p ++ [c]` has last element `c`. -/
theorem sufLast {l p : List Char} {c : Char} (h : (p ++ [c]).isSuffixOf l = true) :
    l.getLast? = some c := by
  rw [List.isSuffixOf_iff_suffix] at h
  obtain ⟨t, rfl⟩ := h
  rw [List.getLast?_append_of_ne_nil t (by simp), List.getLast?_append_of_ne_nil p (by simp)]
  rfl

/-- A suffix whose last character differs from the list's last character is
not a suffix. -/
theorem endsFalse {fl p : List Char} {c c' : Char} (hl : fl.getLast? = some c)
    (hne : c' ≠ c) : (p ++ [c']).isSuffixOf fl = false := by
  by_contra hbe
  have : (p ++ [c']).isSuffixOf fl = true := by
    cases hx : (p ++ [c']).isSuffixOf fl
    · exact absurd hx hbe
    · rfl
  have h2 := sufLast this
  rw [hl] at h2
  exact hne (Option.some_injective _ h2).symm

/-- C10: a filename ending in `.pdf` (case-insensitively) is handled by the
core: `parse_file_content` returns exactly one `pdf_content` record whose
`content` field is the first 1000 characters of the input. -/
theorem claim_C10 (content filename : String)
    (h : endsWithL (lowerL filename.data) (".pdf".data) = true) :
    parse_file_content content filename = .ok [pdfRec content] := by
  have hf : (lowerL filename.data).getLast? = some 'f' := by
    have e : (".pdf".data) = (".pd".data) ++ ['f'] := by decide
    rw [endsWithL, e] at h
    exact sufLast h
  have h1 : endsWithL (lowerL filename.data) (".html".data) = false := by
    have e : (".html".data) = (".htm".data) ++ ['l'] := by decide
    rw [endsWithL, e]
    exact endsFalse hf (by decide)
  have h2 : endsWithL (lowerL filename.data) (".htm".data) = false := by
    have e : (".htm".data) = (".ht".data) ++ ['m'] := by decide
    rw [endsWithL, e]
    exact endsFalse hf (by decide)
  have h3 : endsWithL (lowerL filename.data) (".md".data) = false := by
    have e : (".md".data) = (".m".data) ++ ['d'] := by decide
    rw [endsWithL, e]
    exact endsFalse hf (by decide)
  have h4 : endsWithL (lowerL filename.data) (".markdown".data) = false := by
    have e : (".markdown".data) = (".markdow".data) ++ ['n'] := by decide
    rw [endsWithL, e]
    exact endsFalse hf (by decide)
  have h5 : endsWithL (lowerL filename.data) (".csv".data) = false := by
    have e : (".csv".data) = (".cs".data) ++ ['v'] := by decide
    rw [endsWithL, e]
    exact endsFalse hf (by decide)
  have h6 : endsWithL (lowerL filename.data) (".json".data) = false := by
    have e : (".json".data) = (".jso".data) ++ ['n'] := by decide
    rw [endsWithL, e]
    exact endsFalse hf (by decide)
  unfold parse_file_content
  simp only [h, h1, h2, h3, h4, h5, h6]
  simp [pdfRec]

/-- Witness for C10 at `("hello", "doc.PDF")`. -/
theorem claim_C10_witness :
    endsWithL (lowerL fnC10w.data) (".pdf".data) = true ∧
    parse_file_content inC10w fnC10w = .ok [pdfRec inC10w] :=
  ⟨by decide, claim_C10 inC10w fnC10w (by decide)⟩

/-- Every line whose stripped form starts with `#` contributes its heading
record to the `parse_markdown` scan, whatever the fence state. -/
theorem mdGo_heading_mem :
    ∀ (lines : List (List Char)) sec code inCode (l : List Char),
      l ∈ lines → startsHashB (stripP l) = true →
      mdHeadRec l ∈ mdGo lines sec code inCode := by
  intro lines
  induction lines with
  | nil => intro _ _ _ l h _; cases h
  | cons hd tl ih =>
    intro sec code inCode l hmem hh
    rcases List.mem_cons.mp hmem with rfl | htl
    · simp only [mdGo, hh, if_true]
      exact List.mem_cons_self _ _
    · simp only [mdGo]
      split
      · exact List.mem_cons_of_mem _ (ih _ _ _ _ htl hh)
      · split
        · split
          · exact List.mem_cons_of_mem _ (ih _ _ _ _ htl hh)
          · exact ih _ _ _ _ htl hh
        · split
          · exact ih _ _ _ _ htl hh
          · split
            · exact List.mem_cons_of_mem _ (ih _ _ _ _ htl hh)
            · split
              · split
                · exact List.mem_cons_of_mem _ (ih _ _ _ _ htl hh)
                · exact ih _ _ _ _ htl hh
              · split
                · exact List.mem_cons_of_mem _ (ih _ _ _ _ htl hh)
                · exact ih _ _ _ _ htl hh

/-- C9 (amended): a line whose stripped form starts with `#` yields a
heading record whose `level` is the number of leading `#` characters of the
raw line — indentation before the first `#` therefore makes the level 0,
not the marker's `#` count. -/
theorem claim_C9 (content : String) (l : List Char)
    (hmem : l ∈ splitNL content.data) (hh : startsHashB (stripP l) = true) :
    mdHeadRec l ∈ parse_markdown content :=
  mdGo_heading_mem _ none [] false l hmem hh

/-- Witness for C9 at content `"## Two words"`. -/
theorem claim_C9_witness :
    inC9w.data ∈ splitNL inC9w.data ∧ startsHashB (stripP inC9w.data) = true ∧
    mdHeadRec inC9w.data ∈ parse_markdown inC9w :=
  ⟨by decide, by decide, claim_C9 inC9w inC9w.data (by decide) (by decide)⟩

/-- Every record the markdown scan emits carries a non-empty `type`. -/
theorem mdGo_hasType :
    ∀ (lines : List (List Char)) sec code inCode (r : Json),
      r ∈ mdGo lines sec code inCode → hasTypeField r := by
  intro lines
  induction lines with
  | nil => intro _ _ _ r h; cases h
  | cons hd tl ih =>
    intro sec code inCode r hmem
    simp only [mdGo] at hmem
    have hstep : ∀ (t : Json) sec' code' inCode', r ∈ t :: mdGo tl sec' code' inCode' →
        (r = t ∨ hasTypeField r) := by
      intro t sec' code' inCode' hr
      rcases List.mem_cons.mp hr with rfl | h
      · exact Or.inl rfl
      · exact Or.inr (ih _ _ _ _ h)
    split at hmem
    · rcases hstep _ _ _ _ hmem with rfl | h
      · exact ⟨_, _, rfl, rfl, by decide⟩
      · exact h
    · split at hmem
      · split at hmem
        · rcases hstep _ _ _ _ hmem with rfl | h
          · exact ⟨_, _, rfl, rfl, by decide⟩
          · exact h
        · exact ih _ _ _ _ hmem
      · split at hmem
        · exact ih _ _ _ _ hmem
        · split at hmem
          · rcases hstep _ _ _ _ hmem with rfl | h
            · exact ⟨_, _, rfl, rfl, by decide⟩
            · exact h
          · split at hmem
            · split at hmem
              · rcases hstep _ _ _ _ hmem with rfl | h
                · exact ⟨_, _, rfl, rfl, by decide⟩
                · exact h
              · exact ih _ _ _ _ hmem
            · split at hmem
              · rcases hstep _ _ _ _ hmem with rfl | h
                · exact ⟨_, _, rfl, rfl, by decide⟩
                · exact h
              · exact ih _ _ _ _ hmem

/-- C3 (amended): on the markdown path every record of
`parse_file_content` has a non-empty `type`; the CSV and raw-JSON paths
(see the counterexample) emit records without one. -/
theorem claim_C3 (content filename : String)
    (h : endsWithL (lowerL filename.data) (".md".data) = true) :
    ∀ rs, parse_file_content content filename = .ok rs → ∀ r ∈ rs, hasTypeField r := by
  have hf : (lowerL filename.data).getLast? = some 'd' := by
    have e : (".md".data) = (".m".data) ++ ['d'] := by decide
    rw [endsWithL, e] at h
    exact sufLast h
  have h1 : endsWithL (lowerL filename.data) (".html".data) = false := by
    have e : (".html".data) = (".htm".data) ++ ['l'] := by decide
    rw [endsWithL, e]
    exact endsFalse hf (by decide)
  have h2 : endsWithL (lowerL filename.data) (".htm".data) = false := by
    have e : (".htm".data) = (".ht".data) ++ ['m'] := by decide
    rw [endsWithL, e]
    exact endsFalse hf (by decide)
  intro rs hrs r hr
  unfold parse_file_content at hrs
  simp only [h, h1, h2] at hrs
  simp at hrs
  subst hrs
  exact mdGo_hasType _ _ _ _ _ hr

/-- Witness for C3 at `("hello *world*", "notes.md")`. -/
theorem claim_C3_witness :
    endsWithL (lowerL fnC3w.data) (".md".data) = true ∧
    ∀ r ∈ parse_markdown inC3w, hasTypeField r :=
  ⟨by decide,
   fun r hr => claim_C3 inC3w fnC3w (by decide) (parse_markdown inC3w) rfl r hr⟩

/-- A successful object-member parse yields an object. -/
theorem pMembs_obj :
    ∀ f acc s v rest, pMembs f acc s = some (v, rest) → ∃ ps, v = Json.obj ps := by
  intro f
  induction f with
  | zero => intro acc s v rest h; simp [pMembs] at h
  | succ f ih =>
    intro acc s v rest h
    simp only [pMembs] at h
    split at h
    · split at h
      · exact absurd h (by simp)
      · split at h
        · split at h
          · exact absurd h (by simp)
          · split at h
            · exact ih _ _ _ _ h
            · obtain ⟨hv, _⟩ := Prod.mk.injEq .. ▸ Option.some_injective _ h
              exact ⟨_, hv.symm⟩
            · exact absurd h (by simp)
        · exact absurd h (by simp)
    · exact absurd h (by simp)

/-- A value parsed from input starting with `{` is an object. -/
theorem pVal_brace_obj :
    ∀ f r v rest, pVal f ('\x7b' :: r) = some (v, rest) → ∃ ps, v = Json.obj ps := by
  intro f r v rest h
  match f with
  | 0 => simp [pVal] at h
  | f + 1 =>
    rw [show pVal (f + 1) ('\x7b' :: r) =
        (match skipWs r with
         | '\x7d' :: r2 => some (Json.obj .nil, r2)
         | r1 => pMembs f .nil r1) from rfl] at h
    split at h
    · obtain ⟨hv, _⟩ := Prod.mk.injEq .. ▸ Option.some_injective _ h
      exact ⟨_, hv.symm⟩
    · exact pMembs_obj _ _ _ _ _ h

/-- `json.loads` of text starting with `{` yields an object on success. -/
theorem jloads_brace_obj {t : List Char} {v : Json}
    (h : jloadsL ('\x7b' :: t) = some v) : ∃ ps, v = Json.obj ps := by
  unfold jloadsL at h
  rw [show skipWs ('\x7b' :: t) = '\x7b' :: t from rfl] at h
  split at h
  · split at h
    · next heq _ =>
      obtain ⟨ps, hps⟩ := pVal_brace_obj _ _ _ _ heq
      cases h
      exact ⟨ps, hps⟩
    · cases h
  · cases h

/-- Splitting an appended list after its first block. -/
theorem exists_append_of (a b c d : List Char) : ∃ t, ((a ++ b) ++ c) ++ d = a ++ t :=
  ⟨b ++ (c ++ d), by simp [List.append_assoc]⟩

/-- The star-group loop only extends the already-accumulated match text. -/
theorem jcGrp_shape :
    ∀ fuel s2 accum txt after, jcMatchAt.grp s2 accum fuel = some (txt, after) →
      ∃ t, txt = accum ++ t := by
  intro fuel
  induction fuel with
  | zero => intro s2 accum txt after h; simp [jcMatchAt.grp] at h
  | succ f ih =>
    intro s2 accum txt after h
    simp only [jcMatchAt.grp] at h
    split at h
    · obtain ⟨ht, _⟩ := Prod.mk.injEq .. ▸ Option.some_injective _ h
      exact ⟨['\x7d'], ht.symm⟩
    · split at h
      · obtain ⟨t, ht⟩ := ih _ _ _ _ h
        rw [ht]
        exact exists_append_of _ _ _ _
      · exact absurd h (by simp)
    · exact absurd h (by simp)

/-- Candidate matches of the JSON-object regex start with `{`. -/
theorem jcMatchAt_shape {s txt after : List Char}
    (h : jcMatchAt s = some (txt, after)) : ∃ t, txt = '\x7b' :: t := by
  unfold jcMatchAt at h
  split at h
  · next r =>
    obtain ⟨t, ht⟩ := jcGrp_shape _ _ _ _ _ h
    exact ⟨_, by rw [ht]; rfl⟩
  · cases h

/-- Every value extracted by the candidate scan is an object. -/
theorem jsonCandidates_obj :
    ∀ f l v, v ∈ jsonCandidates f l → ∃ ps, v = Json.obj ps := by
  intro f
  induction f with
  | zero => intro l v h; cases h
  | succ f ih =>
    intro l v h
    match l with
    | [] => cases h
    | c :: rest =>
      simp only [jsonCandidates] at h
      split at h
      · next txt after heq =>
        split at h
        · next w hw =>
          rcases List.mem_cons.mp h with rfl | h2
          · obtain ⟨t, rfl⟩ := jcMatchAt_shape heq
            exact jloads_brace_obj hw
          · exact ih _ _ h2
        · exact ih _ _ h
      · exact ih _ _ h

/-- The `{"type": "json_object", **obj}` loop succeeds when every element
is a mapping. -/
theorem spreadJsonObjs_ok :
    ∀ objs, (∀ v ∈ objs, ∃ ps, v = Json.obj ps) → ∃ rs, spreadJsonObjs objs = .ok rs := by
  intro objs
  induction objs with
  | nil => exact fun _ => ⟨[], rfl⟩
  | cons hd tl ih =>
    intro h
    obtain ⟨ps, rfl⟩ := h hd (List.mem_cons_self _ _)
    obtain ⟨rs, hrs⟩ := ih (fun v hv => h v (List.mem_cons_of_mem _ hv))
    refine ⟨Json.obj (insertAll (ofPairs [(kTy, Json.str ("json_object".data))]) ps) :: rs, ?_⟩
    simp [spreadJsonObjs, hrs, Except.map]

/-- The raw-text fallback emits a record for every non-blank line. -/
theorem textLineRecs_ne :
    ∀ (lines : List (List Char)) i, (∃ l ∈ lines, stripP l ≠ []) →
      textLineRecs i lines ≠ [] := by
  intro lines
  induction lines with
  | nil => intro i h; obtain ⟨l, hl, _⟩ := h; cases hl
  | cons hd tl ih =>
    intro i h
    obtain ⟨l, hl, hne⟩ := h
    by_cases hhd : stripP hd = []
    · have he : textLineRecs i (hd :: tl) = textLineRecs (i + 1) tl := by
        simp only [textLineRecs]
        rw [if_neg]
        intro hx
        exact hx hhd
      rw [he]
      rcases List.mem_cons.mp hl with rfl | htl
      · exact absurd hhd hne
      · exact ih _ ⟨l, htl, hne⟩
    · simp only [textLineRecs]
      rw [if_pos hhd]
      simp

/-- Whatever the earlier stages produced, `mixedAssemble` is non-empty as
soon as one source line is non-blank. -/
theorem mixedAssemble_ne (content : String) (spread : List Json)
    (hline : ∃ l ∈ splitNL content.data, stripP l ≠ []) :
    mixedAssemble content spread ≠ [] := by
  unfold mixedAssemble
  split
  · exact textLineRecs_ne _ _ hline
  · next hk =>
    intro hcon
    rw [hcon] at hk
    simp at hk

/-- When the whole-content JSON stage cannot raise `TypeError` and some
line is non-blank, the mixed-content extractor succeeds with a non-empty
record sequence. -/
theorem parse_mixed_ok_ne (content filename : String)
    (hsafe : mixedJsonSafe content = true)
    (hline : ∃ l ∈ splitNL content.data, stripP l ≠ []) :
    ∃ rs, parse_mixed_content content filename = .ok rs ∧ rs ≠ [] := by
  have hobjs : ∀ v ∈ mixedJsonObjects content, ∃ ps, v = Json.obj ps := by
    unfold mixedJsonSafe at hsafe
    unfold mixedJsonObjects
    split
    · next xs heq =>
      rw [heq] at hsafe
      intro v hv
      have := List.all_eq_true.mp hsafe v hv
      cases v <;> simp_all
    · intro v hv
      rcases List.mem_cons.mp hv with rfl | h2
      · exact ⟨_, rfl⟩
      · cases h2
    · intro v hv; cases hv
    · exact fun v hv => jsonCandidates_obj _ _ _ hv
  obtain ⟨rs0, hrs0⟩ := spreadJsonObjs_ok _ hobjs
  refine ⟨mixedAssemble content rs0, ?_, mixedAssemble_ne content rs0 hline⟩
  unfold parse_mixed_content
  rw [hrs0]

/-- C4 (amended): `parse_file_content` returns a non-empty record sequence
whenever the dispatch reaches the mixed-content path (no
`.html/.htm/.md/.markdown/.csv/.json/.pdf` extension), the content has at
least one non-blank line, and the whole-content JSON stage cannot raise
`TypeError`.  Whitespace-only content (see the counterexample), header-only
CSV, and the `TypeError` on e.g. `[1,2]` break the claim as stated. -/
theorem claim_C4 (content filename : String)
    (hext : parseExtB filename = false)
    (hsafe : mixedJsonSafe content = true)
    (hline : ∃ l ∈ splitNL content.data, stripP l ≠ []) :
    ∃ rs, parse_file_content content filename = .ok rs ∧ rs ≠ [] := by
  simp only [parseExtB, Bool.or_eq_false_iff] at hext
  obtain ⟨⟨⟨⟨⟨⟨e1, e2⟩, e3⟩, e4⟩, e5⟩, e6⟩, e7⟩ := hext
  unfold parse_file_content
  simp only [e1, e2, e3, e4, e5, e6, e7]
  simp only [Bool.false_eq_true, false_or, or_self, if_false]
  exact parse_mixed_ok_ne content filename hsafe hline

/-- Witness for C4 at `("plain text", "")`. -/
theorem claim_C4_witness :
    parseExtB "" = false ∧ mixedJsonSafe inC4w = true ∧
    (∃ l ∈ splitNL inC4w.data, stripP l ≠ []) ∧
    ∃ rs, parse_file_content inC4w "" = .ok rs ∧ rs ≠ [] :=
  ⟨by decide, by decide, by decide, claim_C4 inC4w "" (by decide) (by decide) (by decide)⟩

/-- C8 (amended): with content not sniffing as JSON, the `<div` marker
routes to `format_html` only in the empty-filename branch; in the
unrecognized-extension branch only `<html` and `<body` do. -/
theorem claim_C8 (content filename : String) (hjson : sniffJsonB content = false) :
    (filename = "" → marker3B content = true →
      format_content content filename = format_html content) ∧
    (recognizedExtB filename = false → marker2B content = true →
      format_content content filename = format_html content) := by
  constructor
  · intro hf hm
    subst hf
    unfold format_content
    simp [hjson, hm]
  · intro hext hm
    have hm3 : marker3B content = true := by
      unfold marker2B at hm
      unfold marker3B
      rcases Bool.or_eq_true_iff.mp hm with h | h <;> simp [h]
    simp only [recognizedExtB, Bool.or_eq_false_iff] at hext
    obtain ⟨⟨⟨⟨⟨⟨⟨⟨x1, x2⟩, x3⟩, x4⟩, x5⟩, x6⟩, x7⟩, x8⟩, x9⟩ := hext
    by_cases hfn : filename = ""
    · subst hfn
      unfold format_content
      simp [hjson, hm3]
    · have hb : (filename == "") = false := by
        simp [hfn]
      unfold format_content
      simp [hb, hjson, hm, x1, x2, x3, x4, x5, x6, x7, x8, x9]

/-- Witness for C8 at content `"intro <div>x</div>"` with empty filename. -/
theorem claim_C8_witness :
    sniffJsonB inC8w = false ∧ marker3B inC8w = true ∧
    format_content inC8w "" = format_html inC8w :=
  ⟨by decide, by decide, (claim_C8 inC8w "" (by decide)).1 rfl (by decide)⟩

/-! ## Round-trip infrastructure for C5 -/

theorem skipWs_cons_of {c : Char} (hc : jsonWs c = false) (t : List Char) :
    skipWs (c :: t) = c :: t := by
  simp [skipWs, List.dropWhile_cons, hc]

theorem skipWs_newline (t : List Char) : skipWs ('\n' :: t) = skipWs t := by
  simp [skipWs, List.dropWhile_cons, show jsonWs '\n' = true from rfl]

theorem skipWs_replicate (n : Nat) (t : List Char) :
    skipWs (List.replicate n ' ' ++ t) = skipWs t := by
  induction n with
  | zero => rfl
  | succ k ih =>
    rw [List.replicate_succ, List.cons_append]
    simpa [skipWs, List.dropWhile_cons] using ih

theorem digitChar_isDigit (n : Nat) : (digitChar n).isDigit = true := by
  unfold digitChar
  split <;> decide

theorem digitChar_toNat {n : Nat} (h : n < 10) : (digitChar n).toNat = 48 + n := by
  interval_cases n <;> decide

theorem not_ws_of_digit {c : Char} (h : c.isDigit = true) :
    jsonWs c = false ∧ pyWs c = false := by
  have h1 : c ≠ ' ' := fun e => by subst e; exact absurd h (by decide)
  have h2 : c ≠ '\t' := fun e => by subst e; exact absurd h (by decide)
  have h3 : c ≠ '\n' := fun e => by subst e; exact absurd h (by decide)
  have h4 : c ≠ '\r' := fun e => by subst e; exact absurd h (by decide)
  have h5 : c ≠ '\x0b' := fun e => by subst e; exact absurd h (by decide)
  have h6 : c ≠ '\x0c' := fun e => by subst e; exact absurd h (by decide)
  constructor <;> simp [jsonWs, pyWs, h1, h2, h3, h4, h5, h6]

theorem natCharsAux_digits :
    ∀ f n, ∀ c ∈ natCharsAux f n, c.isDigit = true := by
  intro f
  induction f with
  | zero => intro n c hc; cases hc
  | succ g ih =>
    intro n c hc
    unfold natCharsAux at hc
    split at hc
    · rcases List.mem_singleton.mp hc with rfl
      exact digitChar_isDigit n
    · rcases List.mem_append.mp hc with h | h
      · exact ih _ _ h
      · rcases List.mem_singleton.mp h with rfl
        exact digitChar_isDigit _

theorem natCharsAux_ne_nil : ∀ g n, natCharsAux (g + 1) n ≠ [] := by
  intro g n
  unfold natCharsAux
  split
  · simp
  · simp

theorem natOfDigits_append_one (xs : List Char) (d : Char) :
    natOfDigits (xs ++ [d]) = natOfDigits xs * 10 + (d.toNat - 48) := by
  simp [natOfDigits, List.foldl_append]

theorem natCharsAux_val :
    ∀ f n, n < 10 ^ f → natOfDigits (natCharsAux f n) = n := by
  intro f
  induction f with
  | zero =>
    intro n hn
    have : n = 0 := by simpa using hn
    subst this
    rfl
  | succ g ih =>
    intro n hn
    unfold natCharsAux
    split
    · next h10 =>
      simp [natOfDigits, digitChar_toNat h10]
    · next h10 =>
      rw [natOfDigits_append_one]
      have hdiv : n / 10 < 10 ^ g := by
        rw [Nat.div_lt_iff_lt_mul (by norm_num)]
        calc n < 10 ^ (g + 1) := hn
        _ = 10 ^ g * 10 := by ring
      rw [ih _ hdiv, digitChar_toNat (Nat.mod_lt _ (by norm_num))]
      omega

theorem natCharsAux_head_ne_zero :
    ∀ f n, 1 ≤ n → n < 10 ^ f → ∀ c t, natCharsAux f n = c :: t → c ≠ '0' := by
  intro f
  induction f with
  | zero =>
    intro n h1 h2 c t hct
    exfalso
    simp at h2
    omega
  | succ g ih =>
    intro n h1 h2 c t hct
    unfold natCharsAux at hct
    split at hct
    · next h10 =>
      obtain ⟨rfl, -⟩ : c = digitChar n ∧ t = [] := by
        constructor <;> [exact (List.cons.injEq .. ▸ hct).1.symm; exact ((List.cons.injEq .. ▸ hct).2).symm]
      intro he
      interval_cases n <;> simp_all [digitChar]
    · next h10 =>
      push_neg at h10
      have hg : g ≥ 1 := by
        by_contra hg0
        have : g = 0 := by omega
        subst this
        simp at h2
        omega
      obtain ⟨g', rfl⟩ : ∃ g', g = g' + 1 := ⟨g - 1, by omega⟩
      have hne := natCharsAux_ne_nil g' (n / 10)
      obtain ⟨c', t', hct'⟩ : ∃ c' t', natCharsAux (g' + 1) (n / 10) = c' :: t' := by
        cases hx : natCharsAux (g' + 1) (n / 10) with
        | nil => exact absurd hx hne
        | cons a b => exact ⟨a, b, rfl⟩
      have hdiv1 : 1 ≤ n / 10 := by
        have := Nat.div_le_div_right (c := 10) h10
        simpa using Nat.one_le_div_iff (by norm_num) |>.mpr h10
      have hdiv2 : n / 10 < 10 ^ (g' + 1) := by
        rw [Nat.div_lt_iff_lt_mul (by norm_num)]
        calc n < 10 ^ (g' + 1 + 1) := h2
        _ = 10 ^ (g' + 1) * 10 := by ring
      have hc' := ih _ hdiv1 hdiv2 _ _ hct'
      rw [hct', List.cons_append] at hct
      have : c = c' := (List.cons.injEq .. ▸ hct).1.symm
      subst this
      exact hc'

theorem lt_ten_pow (n : Nat) : n < 10 ^ (n + 1) :=
  lt_of_lt_of_le (Nat.lt_pow_self (by norm_num) n)
    (Nat.pow_le_pow_right (by norm_num) (Nat.le_succ n))

theorem natChars_val (n : Nat) : natOfDigits (natChars n) = n :=
  natCharsAux_val _ _ (lt_ten_pow n)

theorem natChars_digits (n : Nat) : ∀ c ∈ natChars n, c.isDigit = true :=
  natCharsAux_digits _ _

theorem natChars_ne_nil (n : Nat) : natChars n ≠ [] := natCharsAux_ne_nil _ _

theorem natChars_head_ne_zero {n : Nat} (h : 1 ≤ n) :
    ∀ c t, natChars n = c :: t → c ≠ '0' :=
  natCharsAux_head_ne_zero _ _ h (lt_ten_pow n)

/-- The printed form of a value begins with a non-whitespace character. -/
theorem pr_head : ∀ (v : Json) (ind : Nat),
    ∃ c t, pr v ind = c :: t ∧ jsonWs c = false ∧ pyWs c = false := by
  intro v ind
  cases v with
  | null => exact ⟨'n', _, rfl, by decide, by decide⟩
  | bool b =>
    cases b with
    | false => exact ⟨'f', _, rfl, by decide, by decide⟩
    | true => exact ⟨'t', _, rfl, by decide, by decide⟩
  | int i =>
    cases i with
    | ofNat n =>
      cases hx : natChars n with
      | nil => exact absurd hx (natChars_ne_nil n)
      | cons c t =>
        have hd : c.isDigit = true := natChars_digits n c (hx ▸ List.mem_cons_self c t)
        obtain ⟨w1, w2⟩ := not_ws_of_digit hd
        exact ⟨c, t, by simp [pr, intChars, hx], w1, w2⟩
    | negSucc m => exact ⟨'-', natChars (m + 1), rfl, by decide, by decide⟩
  | str s => exact ⟨'\x22', _, rfl, by decide, by decide⟩
  | arr xs =>
    cases xs with
    | nil => exact ⟨'[', _, rfl, by decide, by decide⟩
    | cons x xs => exact ⟨'[', _, rfl, by decide, by decide⟩
  | obj ps =>
    cases ps with
    | nil => exact ⟨'\x7b', _, rfl, by decide, by decide⟩
    | cons k v ps => exact ⟨'\x7b', _, rfl, by decide, by decide⟩

/-- The printed form of a value ends with a non-whitespace character. -/
theorem pr_last : ∀ (v : Json) (ind : Nat),
    ∃ c, (pr v ind).getLast? = some c ∧ pyWs c = false := by
  intro v ind
  cases v with
  | null => exact ⟨'l', rfl, by decide⟩
  | bool b =>
    cases b with
    | false => exact ⟨'e', rfl, by decide⟩
    | true => exact ⟨'e', rfl, by decide⟩
  | int i =>
    cases i with
    | ofNat n =>
      obtain ⟨init, lc, hx⟩ := (List.eq_nil_or_concat (natChars n)).resolve_left (natChars_ne_nil n)
      rw [List.concat_eq_append] at hx
      have hd : lc.isDigit = true := natChars_digits n lc (by
        rw [hx]
        exact List.mem_append.mpr (Or.inr (List.mem_singleton_self lc)))
      refine ⟨lc, ?_, (not_ws_of_digit hd).2⟩
      show (pr (Json.int (Int.ofNat n)) ind).getLast? = some lc
      have : pr (Json.int (Int.ofNat n)) ind = natChars n := rfl
      rw [this, hx, List.getLast?_concat]
    | negSucc m =>
      obtain ⟨init, lc, hx⟩ := (List.eq_nil_or_concat (natChars (m + 1))).resolve_left (natChars_ne_nil _)
      rw [List.concat_eq_append] at hx
      have hd : lc.isDigit = true := natChars_digits _ lc (by
        rw [hx]
        exact List.mem_append.mpr (Or.inr (List.mem_singleton_self lc)))
      refine ⟨lc, ?_, (not_ws_of_digit hd).2⟩
      have : pr (Json.int (Int.negSucc m)) ind = '-' :: natChars (m + 1) := rfl
      rw [this, hx, ← List.cons_append, List.getLast?_concat]
  | str s =>
    refine ⟨'\x22', ?_, by decide⟩
    have : pr (Json.str s) ind = ('\x22' :: escStr s) ++ ['\x22'] := by
      simp [pr]
    rw [this, List.getLast?_concat]
  | arr xs =>
    cases xs with
    | nil => exact ⟨']', rfl, by decide⟩
    | cons x xs =>
      refine ⟨']', ?_, by decide⟩
      have : pr (Json.arr (JList.cons x xs)) ind =
          ('[' :: '\n' :: prItems (.cons x xs) (ind + 1) ++ '\n' :: sp ind) ++ [']'] := by
        simp [pr, List.append_assoc]
      rw [this, List.getLast?_concat]
  | obj ps =>
    cases ps with
    | nil => exact ⟨'\x7d', rfl, by decide⟩
    | cons k v ps =>
      refine ⟨'\x7d', ?_, by decide⟩
      have : pr (Json.obj (JPairs.cons k v ps)) ind =
          ('\x7b' :: '\n' :: prPairs (.cons k v ps) (ind + 1) ++ '\n' :: sp ind) ++ ['\x7d'] := by
        simp [pr, List.append_assoc]
      rw [this, List.getLast?_concat]

theorem lstrip_cons_of {c : Char} (hc : pyWs c = false) (t : List Char) :
    lstripP (c :: t) = c :: t := by
  simp [lstripP, List.dropWhile_cons, hc]

theorem rstrip_of_last {l : List Char} {c : Char} (h : l.getLast? = some c)
    (hc : pyWs c = false) : rstripP l = l := by
  unfold rstripP
  cases hr : l.reverse with
  | nil =>
    have hl : l = [] := by simpa using congrArg List.reverse hr
    subst hl
    rfl
  | cons a t =>
    have ha : l.getLast? = some a := by
      rw [← List.head?_reverse, hr]
      rfl
    have hac : a = c := by
      rw [h] at ha
      exact (Option.some_injective _ ha).symm
    have hstep : List.dropWhile pyWs (a :: t) = a :: t := by
      rw [List.dropWhile_cons, if_neg]
      simp [hac, hc]
    rw [hstep, ← hr, List.reverse_reverse]

/-- `str.strip()` leaves printed JSON untouched. -/
theorem stripP_pr (v : Json) (ind : Nat) : stripP (pr v ind) = pr v ind := by
  obtain ⟨c, t, hct, _, hws⟩ := pr_head v ind
  obtain ⟨lc, hlc, hlcws⟩ := pr_last v ind
  unfold stripP
  rw [hct, lstrip_cons_of hws, ← hct, rstrip_of_last hlc hlcws]

theorem hexVal_hexDigit {n : Nat} (h : n < 16) : hexVal (hexDigit n) = some n := by
  interval_cases n <;> decide

/-- Decoding a `\u00xy` control escape recovers the character. -/
theorem pUni_ctrl (c : Char) (hlt : c.toNat < 32) (X : List Char) :
    pUni ('0' :: '0' :: hexDigit (c.toNat / 16) :: hexDigit (c.toNat % 16) :: X) =
      some (c, X) := by
  have e1 := hexVal_hexDigit (show c.toNat / 16 < 16 by omega)
  have e2 := hexVal_hexDigit (show c.toNat % 16 < 16 by omega)
  unfold pUni
  dsimp only
  rw [show hexVal '0' = some 0 from rfl, e1, e2]
  dsimp only
  rw [if_neg (by omega), if_neg (by omega)]
  have hn : ((0 * 16 + 0) * 16 + c.toNat / 16) * 16 + c.toNat % 16 = c.toNat := by omega
  rw [hn, Char.ofNat_toNat]

theorem escStr_len : ∀ k : List Char, k.length ≤ (escStr k).length := by
  intro k
  induction k with
  | nil => simp [escStr]
  | cons c k ih =>
    show (c :: k).length ≤ (escChar c ++ escStr k).length
    rw [List.length_cons, List.length_append]
    have : 1 ≤ (escChar c).length := by
      unfold escChar
      split_ifs <;> simp
    omega

/-- Parsing the escaped form of a string recovers the string, given fuel
beyond the string's length. -/
theorem rtStrF : ∀ (k : List Char) (fuel : Nat) (rest : List Char), k.length < fuel →
    pStrF fuel (escStr k ++ '\x22' :: rest) = some (k, rest) := by
  intro k
  induction k with
  | nil =>
    intro fuel rest hf
    cases fuel with
    | zero => simp at hf
    | succ f =>
      show pStrF (f + 1) ('\x22' :: rest) = some ([], rest)
      rfl
  | cons c k ih =>
    intro fuel rest hf
    cases fuel with
    | zero => simp at hf
    | succ f =>
      have hlen : k.length < f := by
        simp only [List.length_cons] at hf
        omega
      have hesc : escStr (c :: k) ++ '\x22' :: rest = escChar c ++ (escStr k ++ '\x22' :: rest) := by
        show (escChar c ++ escStr k) ++ '\x22' :: rest = _
        rw [List.append_assoc]
      rw [hesc]
      unfold escChar
      split_ifs with h1 h2 h3 h4 h5 h6 h7 h8
      · subst h1
        show pStrF (f + 1) ('\\' :: '\x22' :: (escStr k ++ '\x22' :: rest)) = _
        rw [show pStrF (f + 1) ('\\' :: '\x22' :: (escStr k ++ '\x22' :: rest)) =
            (pStrF f (escStr k ++ '\x22' :: rest)).map (fun (s, r') => ('\x22' :: s, r')) from rfl,
          ih f rest hlen]
        rfl
      · subst h2
        rw [show ('\\' :: '\\' :: []) ++ (escStr k ++ '\x22' :: rest) =
            '\\' :: '\\' :: (escStr k ++ '\x22' :: rest) from rfl]
        rw [show pStrF (f + 1) ('\\' :: '\\' :: (escStr k ++ '\x22' :: rest)) =
            (pStrF f (escStr k ++ '\x22' :: rest)).map (fun (s, r') => ('\\' :: s, r')) from rfl,
          ih f rest hlen]
        rfl
      · subst h3
        rw [show ('\\' :: 'n' :: []) ++ (escStr k ++ '\x22' :: rest) =
            '\\' :: 'n' :: (escStr k ++ '\x22' :: rest) from rfl]
        rw [show pStrF (f + 1) ('\\' :: 'n' :: (escStr k ++ '\x22' :: rest)) =
            (pStrF f (escStr k ++ '\x22' :: rest)).map (fun (s, r') => ('\n' :: s, r')) from rfl,
          ih f rest hlen]
        rfl
      · subst h4
        rw [show ('\\' :: 'r' :: []) ++ (escStr k ++ '\x22' :: rest) =
            '\\' :: 'r' :: (escStr k ++ '\x22' :: rest) from rfl]
        rw [show pStrF (f + 1) ('\\' :: 'r' :: (escStr k ++ '\x22' :: rest)) =
            (pStrF f (escStr k ++ '\x22' :: rest)).map (fun (s, r') => ('\r' :: s, r')) from rfl,
          ih f rest hlen]
        rfl
      · subst h5
        rw [show ('\\' :: 't' :: []) ++ (escStr k ++ '\x22' :: rest) =
            '\\' :: 't' :: (escStr k ++ '\x22' :: rest) from rfl]
        rw [show pStrF (f + 1) ('\\' :: 't' :: (escStr k ++ '\x22' :: rest)) =
            (pStrF f (escStr k ++ '\x22' :: rest)).map (fun (s, r') => ('\t' :: s, r')) from rfl,
          ih f rest hlen]
        rfl
      · subst h6
        rw [show ('\\' :: 'b' :: []) ++ (escStr k ++ '\x22' :: rest) =
            '\\' :: 'b' :: (escStr k ++ '\x22' :: rest) from rfl]
        rw [show pStrF (f + 1) ('\\' :: 'b' :: (escStr k ++ '\x22' :: rest)) =
            (pStrF f (escStr k ++ '\x22' :: rest)).map (fun (s, r') => ('\x08' :: s, r')) from rfl,
          ih f rest hlen]
        rfl
      · subst h7
        rw [show ('\\' :: 'f' :: []) ++ (escStr k ++ '\x22' :: rest) =
            '\\' :: 'f' :: (escStr k ++ '\x22' :: rest) from rfl]
        rw [show pStrF (f + 1) ('\\' :: 'f' :: (escStr k ++ '\x22' :: rest)) =
            (pStrF f (escStr k ++ '\x22' :: rest)).map (fun (s, r') => ('\x0c' :: s, r')) from rfl,
          ih f rest hlen]
        rfl
      · rw [show ('\\' :: 'u' :: '0' :: '0' :: hexDigit (c.toNat / 16) ::
              hexDigit (c.toNat % 16) :: []) ++ (escStr k ++ '\x22' :: rest) =
            '\\' :: 'u' :: ('0' :: '0' :: hexDigit (c.toNat / 16) ::
              hexDigit (c.toNat % 16) :: (escStr k ++ '\x22' :: rest)) from rfl]
        rw [show pStrF (f + 1) ('\\' :: 'u' :: ('0' :: '0' :: hexDigit (c.toNat / 16) ::
              hexDigit (c.toNat % 16) :: (escStr k ++ '\x22' :: rest))) =
            (match pUni ('0' :: '0' :: hexDigit (c.toNat / 16) ::
                hexDigit (c.toNat % 16) :: (escStr k ++ '\x22' :: rest)) with
             | some (ch, r1) => (pStrF f r1).map (fun (s, r') => (ch :: s, r'))
             | none => none) from rfl]
        rw [pUni_ctrl c h8]
        dsimp only
        rw [ih f rest hlen]
        rfl
      · rw [show ([c] : List Char) ++ (escStr k ++ '\x22' :: rest) =
            c :: (escStr k ++ '\x22' :: rest) from rfl]
        rw [pStrF.eq_def]
        dsimp only
        rw [if_neg h1, if_neg h2, if_neg h8, ih f rest hlen]
        rfl

/-- Parsing the escaped form of a string recovers the string. -/
theorem rtStr (k rest : List Char) :
    pStr (escStr k ++ '\x22' :: rest) = some (k, rest) := by
  unfold pStr
  apply rtStrF
  have h1 := escStr_len k
  rw [List.length_append]
  omega

/-! ### Token-level round-trip lemmas -/

theorem takeWhile_append_all {p : Char → Bool} :
    ∀ {xs : List Char}, (∀ c ∈ xs, p c = true) →
      ∀ r, (xs ++ r).takeWhile p = xs ++ r.takeWhile p := by
  intro xs
  induction xs with
  | nil => intro _ r; rfl
  | cons a as ih =>
    intro h r
    rw [List.cons_append, List.takeWhile_cons_of_pos (h a (List.mem_cons_self a as)),
      ih (fun c hc => h c (List.mem_cons_of_mem a hc)) r, List.cons_append]

theorem dropWhile_append_all {p : Char → Bool} :
    ∀ {xs : List Char}, (∀ c ∈ xs, p c = true) →
      ∀ r, (xs ++ r).dropWhile p = r.dropWhile p := by
  intro xs
  induction xs with
  | nil => intro _ r; rfl
  | cons a as ih =>
    intro h r
    rw [List.cons_append, List.dropWhile_cons_of_pos (h a (List.mem_cons_self a as)),
      ih (fun c hc => h c (List.mem_cons_of_mem a hc)) r]

theorem skipWs_space (t : List Char) : skipWs (' ' :: t) = skipWs t := by
  simp [skipWs, List.dropWhile_cons, show jsonWs ' ' = true from rfl]

theorem skipWs_sp (n : Nat) (t : List Char) : skipWs (sp n ++ t) = skipWs t := by
  show skipWs (List.replicate (2 * n) ' ' ++ t) = skipWs t
  exact skipWs_replicate _ t

theorem skipWs_pr (v : Json) (ind : Nat) (T : List Char) :
    skipWs (pr v ind ++ T) = pr v ind ++ T := by
  obtain ⟨c, t, hct, hws, -⟩ := pr_head v ind
  rw [hct, List.cons_append, skipWs_cons_of hws]

theorem digit_ne_lits {c : Char} (h : c.isDigit = true) :
    c ≠ '\x22' ∧ c ≠ '\x7b' ∧ c ≠ '[' ∧ c ≠ 'n' ∧ c ≠ 't' ∧ c ≠ 'f' ∧ c ≠ '-' := by
  refine ⟨?_, ?_, ?_, ?_, ?_, ?_, ?_⟩ <;> (intro e; subst e; exact absurd h (by decide))

theorem okAfter_head {d : Char} {t : List Char} (h : okAfter (d :: t)) :
    d.isDigit = false ∧ d ≠ '.' ∧ d ≠ 'e' ∧ d ≠ 'E' := by
  have h2 : d = ',' ∨ d = '\n' := h
  rcases h2 with rfl | rfl <;> exact ⟨rfl, by decide, by decide, by decide⟩

/-- Parsing the printed form of an integer body recovers the number, as long
as what follows cannot extend the literal. -/
theorem rtNum (n : Nat) (rest : List Char) (hr : okAfter rest) :
    pNumBody (natChars n ++ rest) = some (n, rest) := by
  rcases Nat.eq_zero_or_pos n with rfl | hpos
  · rw [show natChars 0 = ['0'] from rfl]
    cases rest with
    | nil => rfl
    | cons d t =>
      obtain ⟨-, hd1, hd2, hd3⟩ := okAfter_head hr
      show pNumBody ('0' :: d :: t) = some (0, d :: t)
      unfold pNumBody
      dsimp only
      rw [if_pos rfl, if_neg (by simp [hd1, hd2, hd3])]
  · obtain ⟨c, t, hct⟩ : ∃ c t, natChars n = c :: t := by
      cases hx : natChars n with
      | nil => exact absurd hx (natChars_ne_nil n)
      | cons a b => exact ⟨a, b, rfl⟩
    have hcd : c.isDigit = true := natChars_digits n c (hct ▸ List.mem_cons_self c t)
    have hc0 : c ≠ '0' := natChars_head_ne_zero hpos c t hct
    have hall : ∀ ch ∈ c :: t, ch.isDigit = true := hct ▸ natChars_digits n
    rw [hct, List.cons_append]
    unfold pNumBody
    dsimp only
    rw [if_neg hc0, if_pos hcd, ← List.cons_append, takeWhile_append_all hall,
      dropWhile_append_all hall]
    cases rest with
    | nil =>
      rw [List.dropWhile_nil, List.takeWhile_nil, List.append_nil, ← hct, natChars_val]
    | cons d t2 =>
      obtain ⟨hdd, hd1, hd2, hd3⟩ := okAfter_head hr
      rw [List.takeWhile_cons_of_neg (by simp [hdd]), List.dropWhile_cons_of_neg (by simp [hdd]),
        List.append_nil, ← hct, natChars_val]
      dsimp only
      rw [if_neg (by simp [hd1, hd2, hd3])]

theorem jsize_pos : ∀ v : Json, 1 ≤ jsize v := by
  intro v
  cases v with
  | null => exact Nat.le_refl 1
  | bool b => exact Nat.le_refl 1
  | int i => exact Nat.le_refl 1
  | str s => exact Nat.le_refl 1
  | arr xs => show 1 ≤ 2 + jsizeL xs; omega
  | obj ps => show 1 ≤ 2 + jsizeP ps; omega

/-! ### Dict-insertion lemmas -/

theorem mem_keys_insertKey (k k2 : List Char) (v : Json) :
    ∀ ps : JPairs, k2 ∈ (insertKey ps k v).keys → k2 ∈ ps.keys ∨ k2 = k
  | .nil, h => Or.inr (by simpa [insertKey, JPairs.keys] using h)
  | .cons a b ps2, h => by
    by_cases hak : a = k
    · rw [show insertKey (.cons a b ps2) k v = .cons a v ps2 by simp [insertKey, hak]] at h
      left
      exact h
    · rw [show insertKey (.cons a b ps2) k v = .cons a b (insertKey ps2 k v) by
        simp [insertKey, hak]] at h
      rcases List.mem_cons.mp h with h2 | h2
      · exact Or.inl (h2 ▸ List.mem_cons_self a ps2.keys)
      · rcases mem_keys_insertKey k k2 v ps2 h2 with h3 | h3
        · exact Or.inl (List.mem_cons_of_mem a h3)
        · exact Or.inr h3

theorem insertKey_WFP (k : List Char) (v : Json) (hv : WFJ v) :
    ∀ ps : JPairs, WFP ps → WFP (insertKey ps k v)
  | .nil, _ => WFP.cons hv WFP.nil (by simp [JPairs.keys])
  | .cons a b ps2, hps => by
    cases hps with
    | cons hb hps2 ha =>
      by_cases hak : a = k
      · rw [show insertKey (.cons a b ps2) k v = .cons a v ps2 by simp [insertKey, hak]]
        exact WFP.cons hv hps2 ha
      · rw [show insertKey (.cons a b ps2) k v = .cons a b (insertKey ps2 k v) by
          simp [insertKey, hak]]
        exact WFP.cons hb (insertKey_WFP k v hv ps2 hps2)
          (fun hmem => (mem_keys_insertKey k a v ps2 hmem).elim ha hak)

theorem insertKey_fresh (k : List Char) (v : Json) :
    ∀ ps : JPairs, k ∉ ps.keys → insertKey ps k v = appendP ps (.cons k v .nil)
  | .nil, _ => rfl
  | .cons a b ps2, h => by
    have hmem : ¬(k = a ∨ k ∈ ps2.keys) := by
      intro hor
      exact h (by simpa [JPairs.keys] using hor)
    push_neg at hmem
    have hak : a ≠ k := fun e => hmem.1 e.symm
    show insertKey (.cons a b ps2) k v = .cons a b (appendP ps2 (.cons k v .nil))
    rw [show insertKey (.cons a b ps2) k v = .cons a b (insertKey ps2 k v) by
      simp [insertKey, hak]]
    rw [insertKey_fresh k v ps2 hmem.2]

theorem appendP_snoc (k : List Char) (v : Json) (ps : JPairs) :
    ∀ acc : JPairs, appendP (appendP acc (.cons k v .nil)) ps = appendP acc (.cons k v ps)
  | .nil => rfl
  | .cons a b acc2 => by
    show JPairs.cons a b (appendP (appendP acc2 (.cons k v .nil)) ps) =
      .cons a b (appendP acc2 (.cons k v ps))
    rw [appendP_snoc k v ps acc2]

/-! ### Printer layout normalisation -/

theorem pr_obj_cons (k : List Char) (v : Json) (ps : JPairs) (ind : Nat) (rest : List Char) :
    pr (.obj (.cons k v ps)) ind ++ rest =
      '\x7b' :: '\n' :: (prPairs (.cons k v ps) (ind + 1) ++
        ('\n' :: (sp ind ++ ('\x7d' :: rest)))) := by
  show ('\x7b' :: '\n' :: prPairs (.cons k v ps) (ind + 1) ++ '\n' :: sp ind ++ ['\x7d']) ++ rest = _
  simp [List.append_assoc]

theorem pr_arr_cons (x : Json) (xs : JList) (ind : Nat) (rest : List Char) :
    pr (.arr (.cons x xs)) ind ++ rest =
      '[' :: '\n' :: (prItems (.cons x xs) (ind + 1) ++
        ('\n' :: (sp ind ++ (']' :: rest)))) := by
  show ('[' :: '\n' :: prItems (.cons x xs) (ind + 1) ++ '\n' :: sp ind ++ [']']) ++ rest = _
  simp [List.append_assoc]

theorem prPairs_single (k : List Char) (v : Json) (j : Nat) (T : List Char) :
    prPairs (.cons k v .nil) j ++ T =
      sp j ++ '\x22' :: (escStr k ++ '\x22' :: ':' :: ' ' :: (pr v j ++ T)) := by
  show (sp j ++ '\x22' :: escStr k ++ '\x22' :: ':' :: ' ' :: pr v j) ++ T = _
  simp [List.append_assoc]

theorem prPairs_cons2 (k : List Char) (v : Json) (k2 : List Char) (v2 : Json) (ps : JPairs)
    (j : Nat) (T : List Char) :
    prPairs (.cons k v (.cons k2 v2 ps)) j ++ T =
      sp j ++ '\x22' :: (escStr k ++ '\x22' :: ':' :: ' ' ::
        (pr v j ++ ',' :: '\n' :: (prPairs (.cons k2 v2 ps) j ++ T))) := by
  show (sp j ++ '\x22' :: escStr k ++ '\x22' :: ':' :: ' ' :: pr v j ++
      ',' :: '\n' :: prPairs (.cons k2 v2 ps) j) ++ T = _
  simp [List.append_assoc]

theorem prItems_single (x : Json) (j : Nat) (T : List Char) :
    prItems (.cons x .nil) j ++ T = sp j ++ (pr x j ++ T) := by
  show (sp j ++ pr x j) ++ T = _
  simp [List.append_assoc]

theorem prItems_cons2 (x y : Json) (ys : JList) (j : Nat) (T : List Char) :
    prItems (.cons x (.cons y ys)) j ++ T =
      sp j ++ (pr x j ++ ',' :: '\n' :: (prItems (.cons y ys) j ++ T)) := by
  show (sp j ++ pr x j ++ ',' :: '\n' :: prItems (.cons y ys) j) ++ T = _
  simp [List.append_assoc]

/-! ### One-step unfolding of the scanner -/

theorem pVal_quote (f : Nat) (r : List Char) :
    pVal (f + 1) ('\x22' :: r) = (pStr r).map (fun (s, r') => (Json.str s, r')) := rfl

theorem pVal_brace (f : Nat) (r : List Char) :
    pVal (f + 1) ('\x7b' :: r) =
      (match skipWs r with
       | '\x7d' :: r2 => some (.obj .nil, r2)
       | r1 => pMembs f .nil r1) := rfl

theorem pVal_brack (f : Nat) (r : List Char) :
    pVal (f + 1) ('[' :: r) =
      (match skipWs r with
       | ']' :: r2 => some (.arr .nil, r2)
       | r1 => pElems f .nil r1) := rfl

theorem pVal_neg (f : Nat) (r : List Char) :
    pVal (f + 1) ('-' :: r) =
      (pNumBody r).map (fun (n, r') => (Json.int (-(n : Int)), r')) := rfl

theorem pElems_succ (f : Nat) (acc : JList) (s : List Char) :
    pElems (f + 1) acc s =
      (match pVal f s with
       | none => none
       | some (v, r1) =>
         match skipWs r1 with
         | ',' :: r2 => pElems f (snocL acc v) (skipWs r2)
         | ']' :: r2 => some (.arr (snocL acc v), r2)
         | _ => none) := rfl

theorem pMembs_quote (f : Nat) (acc : JPairs) (r : List Char) :
    pMembs (f + 1) acc ('\x22' :: r) =
      (match pStr r with
       | none => none
       | some (k, r1) =>
         match skipWs r1 with
         | ':' :: r2 =>
           match pVal f (skipWs r2) with
           | none => none
           | some (v, r3) =>
             match skipWs r3 with
             | ',' :: r4 => pMembs f (insertKey acc k v) (skipWs r4)
             | '\x7d' :: r4 => some (.obj (insertKey acc k v), r4)
             | _ => none
         | _ => none) := rfl

theorem appendL_cons_out : ∀ (xs : JList) (a : Json) (acc : JList),
    appendL (.cons a acc) xs = .cons a (appendL acc xs)
  | .nil, a, acc => rfl
  | .cons x xs2, a, acc => by
    show appendL (.cons a (snocL acc x)) xs2 = .cons a (appendL (snocL acc x) xs2)
    exact appendL_cons_out xs2 a (snocL acc x)

theorem appendL_nil : ∀ xs : JList, appendL .nil xs = xs
  | .nil => rfl
  | .cons x xs2 => by
    show appendL (.cons x .nil) xs2 = .cons x xs2
    rw [appendL_cons_out, appendL_nil xs2]

theorem skipWs_out (c : Char) (hc : jsonWs c = false) (ind : Nat) (rest : List Char) :
    skipWs ('\n' :: (sp ind ++ (c :: rest))) = c :: rest := by
  rw [skipWs_newline, skipWs_sp, skipWs_cons_of hc]

/-- The first character of printed JSON is never a whitespace, closing
bracket or closing brace. -/
theorem pr_head_ne : ∀ (v : Json) (ind : Nat),
    ∃ c t, pr v ind = c :: t ∧ jsonWs c = false ∧ c ≠ ']' ∧ c ≠ '\x7d' := by
  intro v ind
  cases v with
  | null => exact ⟨'n', _, rfl, by decide, by decide, by decide⟩
  | bool b =>
    cases b with
    | false => exact ⟨'f', _, rfl, by decide, by decide, by decide⟩
    | true => exact ⟨'t', _, rfl, by decide, by decide, by decide⟩
  | int i =>
    cases i with
    | ofNat n =>
      cases hx : natChars n with
      | nil => exact absurd hx (natChars_ne_nil n)
      | cons c t =>
        have hd : c.isDigit = true := natChars_digits n c (hx ▸ List.mem_cons_self c t)
        refine ⟨c, t, by simp [pr, intChars, hx], (not_ws_of_digit hd).1, ?_, ?_⟩
        · intro e
          subst e
          exact absurd hd (by decide)
        · intro e
          subst e
          exact absurd hd (by decide)
    | negSucc m => exact ⟨'-', natChars (m + 1), rfl, by decide, by decide, by decide⟩
  | str s => exact ⟨'\x22', _, rfl, by decide, by decide, by decide⟩
  | arr xs =>
    cases xs with
    | nil => exact ⟨'[', _, rfl, by decide, by decide, by decide⟩
    | cons x xs => exact ⟨'[', _, rfl, by decide, by decide, by decide⟩
  | obj ps =>
    cases ps with
    | nil => exact ⟨'\x7b', _, rfl, by decide, by decide, by decide⟩
    | cons k v ps => exact ⟨'\x7b', _, rfl, by decide, by decide, by decide⟩

/-- Round-trip: `pVal` recovers any well-formed value from its printed form,
with the object- and array-member loops as auxiliary statements. -/
theorem rt_all : ∀ fuel : Nat,
    (∀ v ind rest, WFJ v → jsize v ≤ fuel → okAfter rest →
      pVal fuel (pr v ind ++ rest) = some (v, rest)) ∧
    (∀ k v ps acc ind rest, WFP (JPairs.cons k v ps) →
      (∀ key ∈ (JPairs.cons k v ps).keys, key ∉ acc.keys) →
      jsizeP (JPairs.cons k v ps) ≤ fuel →
      pMembs fuel acc
          (skipWs (prPairs (.cons k v ps) (ind + 1) ++ ('\n' :: (sp ind ++ ('\x7d' :: rest))))) =
        some (.obj (appendP acc (.cons k v ps)), rest)) ∧
    (∀ x xs acc ind rest, WFJ x → WFL xs → jsizeL (JList.cons x xs) ≤ fuel →
      pElems fuel acc
          (skipWs (prItems (.cons x xs) (ind + 1) ++ ('\n' :: (sp ind ++ (']' :: rest))))) =
        some (.arr (appendL acc (.cons x xs)), rest)) := by
  intro fuel
  induction fuel with
  | zero =>
    refine ⟨?_, ?_, ?_⟩
    · intro v ind rest hwf hsz hok
      have := jsize_pos v
      omega
    · intro k v ps acc ind rest hwf hdj hsz
      have hsz2 : 1 + jsize v + jsizeP ps ≤ 0 := hsz
      omega
    · intro x xs acc ind rest hwx hwl hsz
      have hsz2 : 1 + jsize x + jsizeL xs ≤ 0 := hsz
      omega
  | succ f ih =>
    obtain ⟨ihV, ihM, ihE⟩ := ih
    refine ⟨?_, ?_, ?_⟩
    · intro v ind rest hwf hsz hok
      cases v with
      | null =>
        show pVal (f + 1) ('n' :: 'u' :: 'l' :: 'l' :: rest) = some (.null, rest)
        rw [show pVal (f + 1) ('n' :: 'u' :: 'l' :: 'l' :: rest) =
            (if ['u', 'l', 'l'].isPrefixOf ('u' :: 'l' :: 'l' :: rest)
             then some (Json.null, ('u' :: 'l' :: 'l' :: rest).drop 3) else none) from rfl]
        simp [List.isPrefixOf]
      | bool b =>
        cases b with
        | true =>
          show pVal (f + 1) ('t' :: 'r' :: 'u' :: 'e' :: rest) = some (.bool true, rest)
          rw [show pVal (f + 1) ('t' :: 'r' :: 'u' :: 'e' :: rest) =
              (if ['r', 'u', 'e'].isPrefixOf ('r' :: 'u' :: 'e' :: rest)
               then some (Json.bool true, ('r' :: 'u' :: 'e' :: rest).drop 3) else none) from rfl]
          simp [List.isPrefixOf]
        | false =>
          show pVal (f + 1) ('f' :: 'a' :: 'l' :: 's' :: 'e' :: rest) = some (.bool false, rest)
          rw [show pVal (f + 1) ('f' :: 'a' :: 'l' :: 's' :: 'e' :: rest) =
              (if ['a', 'l', 's', 'e'].isPrefixOf ('a' :: 'l' :: 's' :: 'e' :: rest)
               then some (Json.bool false, ('a' :: 'l' :: 's' :: 'e' :: rest).drop 4) else none)
              from rfl]
          simp [List.isPrefixOf]
      | int i =>
        cases i with
        | ofNat n =>
          obtain ⟨c, t, hct⟩ : ∃ c t, natChars n = c :: t := by
            cases hx : natChars n with
            | nil => exact absurd hx (natChars_ne_nil n)
            | cons a b => exact ⟨a, b, rfl⟩
          have hcd : c.isDigit = true := natChars_digits n c (hct ▸ List.mem_cons_self c t)
          obtain ⟨hq, hbr, hbk, hn, ht, hf2, hm⟩ := digit_ne_lits hcd
          show pVal (f + 1) (natChars n ++ rest) = some (.int (Int.ofNat n), rest)
          rw [hct, List.cons_append, pVal.eq_def]
          dsimp only
          rw [if_neg hq, if_neg hbr, if_neg hbk, if_neg hn, if_neg ht, if_neg hf2, if_neg hm,
            if_pos hcd, ← List.cons_append, ← hct, rtNum n rest hok]
          rfl
        | negSucc m =>
          show pVal (f + 1) ('-' :: (natChars (m + 1) ++ rest)) = some (.int (Int.negSucc m), rest)
          rw [pVal_neg, rtNum (m + 1) rest hok]
          rfl
      | str s =>
        have hshape : pr (Json.str s) ind ++ rest = '\x22' :: (escStr s ++ '\x22' :: rest) := by
          show ('\x22' :: escStr s ++ ['\x22']) ++ rest = _
          simp [List.append_assoc]
        rw [hshape, pVal_quote, rtStr s rest]
        rfl
      | arr xs =>
        cases xs with
        | nil => exact rfl
        | cons x xs2 =>
          have hwl : WFL (JList.cons x xs2) := by
            cases hwf with
            | arr hl => exact hl
          obtain ⟨hwx, hwxs⟩ : WFJ x ∧ WFL xs2 := by
            cases hwl with
            | cons h1 h2 => exact ⟨h1, h2⟩
          have hsz2 : 2 + (1 + jsize x + jsizeL xs2) ≤ f + 1 := hsz
          rw [pr_arr_cons, pVal_brack, skipWs_newline]
          obtain ⟨c, w, hz, hcne⟩ : ∃ c w,
              skipWs (prItems (.cons x xs2) (ind + 1) ++ ('\n' :: (sp ind ++ (']' :: rest)))) =
                c :: w ∧ c ≠ ']' := by
            obtain ⟨c, t, hct, hws, hc1, hc2⟩ := pr_head_ne x (ind + 1)
            cases xs2 with
            | nil =>
              rw [prItems_single, skipWs_sp, hct, List.cons_append, skipWs_cons_of hws]
              exact ⟨c, _, rfl, hc1⟩
            | cons y ys =>
              rw [prItems_cons2, skipWs_sp, hct, List.cons_append, skipWs_cons_of hws]
              exact ⟨c, _, rfl, hc1⟩
          rw [hz]
          split
          · next r2 heq =>
            injection heq with h1 h2
            exact absurd h1 hcne
          · rw [← hz, ihE x xs2 .nil ind rest hwx hwxs
              (by show 1 + jsize x + jsizeL xs2 ≤ f; omega), appendL_nil]
      | obj ps =>
        cases ps with
        | nil => exact rfl
        | cons k v2 ps2 =>
          have hwp : WFP (JPairs.cons k v2 ps2) := by
            cases hwf with
            | obj hp => exact hp
          have hsz2 : 2 + (1 + jsize v2 + jsizeP ps2) ≤ f + 1 := hsz
          rw [pr_obj_cons, pVal_brace, skipWs_newline]
          obtain ⟨w, hz⟩ : ∃ w,
              skipWs (prPairs (.cons k v2 ps2) (ind + 1) ++ ('\n' :: (sp ind ++ ('\x7d' :: rest)))) =
                '\x22' :: w := by
            cases ps2 with
            | nil =>
              rw [prPairs_single, skipWs_sp, skipWs_cons_of (by decide)]
              exact ⟨_, rfl⟩
            | cons k2 v3 ps3 =>
              rw [prPairs_cons2, skipWs_sp, skipWs_cons_of (by decide)]
              exact ⟨_, rfl⟩
          rw [hz]
          split
          · next r2 heq =>
            injection heq with h1 h2
            exact absurd h1 (by decide)
          · rw [← hz, ihM k v2 ps2 .nil ind rest hwp (by simp [JPairs.keys])
              (by show 1 + jsize v2 + jsizeP ps2 ≤ f; omega)]
            rfl
    · intro k v ps acc ind rest hwf hdj hsz
      obtain ⟨hv, hps, hknotin⟩ : WFJ v ∧ WFP ps ∧ k ∉ ps.keys := by
        cases hwf with
        | cons h1 h2 h3 => exact ⟨h1, h2, h3⟩
      have hsz2 : 1 + jsize v + jsizeP ps ≤ f + 1 := hsz
      have hkacc : k ∉ acc.keys := hdj k (List.mem_cons_self k ps.keys)
      cases ps with
      | nil =>
        rw [prPairs_single, skipWs_sp, skipWs_cons_of (by decide), pMembs_quote, rtStr k _]
        dsimp only
        rw [skipWs_cons_of (by decide)]
        split
        · next r2 heq =>
          injection heq with h1 h2
          subst h2
          rw [skipWs_space, skipWs_pr,
            ihV v (ind + 1) ('\n' :: (sp ind ++ ('\x7d' :: rest))) hv
              (by have := jsize_pos v; omega) (Or.inr rfl)]
          dsimp only
          rw [skipWs_out '\x7d' (by decide)]
          split
          · next r4 heq2 =>
            injection heq2 with h3 h4
            exact absurd h3 (by decide)
          · next r4 heq2 =>
            injection heq2 with h3 h4
            subst h4
            rw [insertKey_fresh k v acc hkacc]
          · next hn1 hn2 =>
            exact (hn2 rest rfl).elim
        · next hn1 =>
          exact (hn1 _ rfl).elim
      | cons k2 v2 ps2 =>
        rw [prPairs_cons2, skipWs_sp, skipWs_cons_of (by decide), pMembs_quote, rtStr k _]
        dsimp only
        rw [skipWs_cons_of (by decide)]
        split
        · next r2 heq =>
          injection heq with h1 h2
          subst h2
          rw [skipWs_space, skipWs_pr,
            ihV v (ind + 1)
              (',' :: '\n' :: (prPairs (.cons k2 v2 ps2) (ind + 1) ++
                ('\n' :: (sp ind ++ ('\x7d' :: rest))))) hv
              (by have := jsize_pos v; omega) (Or.inl rfl)]
          dsimp only
          rw [skipWs_cons_of (by decide)]
          split
          · next r4 heq2 =>
            injection heq2 with h3 h4
            subst h4
            rw [skipWs_newline]
            have hdj2 : ∀ key ∈ (JPairs.cons k2 v2 ps2).keys, key ∉ (insertKey acc k v).keys := by
              intro key hkey hmem
              rcases mem_keys_insertKey k key v acc hmem with hin | hkeq
              · exact hdj key (List.mem_cons_of_mem k hkey) hin
              · exact hknotin (hkeq ▸ hkey)
            rw [ihM k2 v2 ps2 (insertKey acc k v) ind rest hps hdj2
              (by have := jsize_pos v; omega)]
            rw [insertKey_fresh k v acc hkacc, appendP_snoc]
          · next r4 heq2 =>
            injection heq2 with h3 h4
            exact absurd h3 (by decide)
          · next hn1 hn2 =>
            exact (hn1 _ rfl).elim
        · next hn1 =>
          exact (hn1 _ rfl).elim
    · intro x xs acc ind rest hwx hwl hsz
      have hsz2 : 1 + jsize x + jsizeL xs ≤ f + 1 := hsz
      cases xs with
      | nil =>
        rw [prItems_single, skipWs_sp, skipWs_pr, pElems_succ,
          ihV x (ind + 1) ('\n' :: (sp ind ++ (']' :: rest))) hwx
            (by have := jsize_pos x; omega) (Or.inr rfl)]
        dsimp only
        rw [skipWs_out ']' (by decide)]
        split
        · next r2 heq =>
          injection heq with h1 h2
          exact absurd h1 (by decide)
        · next r2 heq =>
          injection heq with h1 h2
          subst h2
          rfl
        · next hn1 hn2 =>
          exact (hn2 rest rfl).elim
      | cons y ys =>
        obtain ⟨hy, hys⟩ : WFJ y ∧ WFL ys := by
          cases hwl with
          | cons h1 h2 => exact ⟨h1, h2⟩
        rw [prItems_cons2, skipWs_sp, skipWs_pr, pElems_succ,
          ihV x (ind + 1)
            (',' :: '\n' :: (prItems (.cons y ys) (ind + 1) ++
              ('\n' :: (sp ind ++ (']' :: rest))))) hwx
            (by have := jsize_pos x; omega) (Or.inl rfl)]
        dsimp only
        rw [skipWs_cons_of (by decide)]
        split
        · next r2 heq =>
          injection heq with h1 h2
          subst h2
          rw [skipWs_newline,
            ihE y ys (snocL acc x) ind rest hy hys (by have := jsize_pos x; omega)]
          rfl
        · next r2 heq =>
          injection heq with h1 h2
          exact absurd h1 (by decide)
        · next hn1 hn2 =>
          exact (hn1 _ rfl).elim

/-! ### Fuel bound: the printed length dominates the size measure -/

mutual
theorem jsize_le : ∀ (v : Json) (ind : Nat), jsize v ≤ (pr v ind).length + 1
  | .null, _ => by show 1 ≤ 4 + 1; omega
  | .bool true, _ => by show 1 ≤ 4 + 1; omega
  | .bool false, _ => by show 1 ≤ 5 + 1; omega
  | .int i, _ => by show 1 ≤ (intChars i).length + 1; omega
  | .str s2, _ => by
    show 1 ≤ ('\x22' :: escStr s2 ++ ['\x22']).length + 1
    omega
  | .arr .nil, _ => by show 2 ≤ 2 + 1; omega
  | .arr (.cons x xs), ind => by
    have h := jsizeL_le (.cons x xs) (ind + 1) (by omega)
    show 2 + jsizeL (.cons x xs) ≤
      ((('[' :: '\n' :: prItems (.cons x xs) (ind + 1)) ++ ('\n' :: sp ind)) ++ [']']).length + 1
    simp only [List.length_append, List.length_cons, List.length_nil]
    omega
  | .obj .nil, _ => by show 2 ≤ 2 + 1; omega
  | .obj (.cons k v ps), ind => by
    have h := jsizeP_le (.cons k v ps) (ind + 1) (by omega)
    show 2 + jsizeP (.cons k v ps) ≤
      ((('\x7b' :: '\n' :: prPairs (.cons k v ps) (ind + 1)) ++ ('\n' :: sp ind)) ++
        ['\x7d']).length + 1
    simp only [List.length_append, List.length_cons, List.length_nil]
    omega
theorem jsizeL_le : ∀ (xs : JList) (ind : Nat), 1 ≤ ind → jsizeL xs ≤ (prItems xs ind).length
  | .nil, _, _ => Nat.zero_le _
  | .cons x .nil, ind, h => by
    have h1 := jsize_le x ind
    show 1 + jsize x + 0 ≤ (sp ind ++ pr x ind).length
    simp only [List.length_append, sp, List.length_replicate]
    omega
  | .cons x (.cons y ys), ind, h => by
    have h1 := jsize_le x ind
    have h2 := jsizeL_le (.cons y ys) ind h
    show 1 + jsize x + jsizeL (.cons y ys) ≤
      ((sp ind ++ pr x ind) ++ (',' :: '\n' :: prItems (.cons y ys) ind)).length
    simp only [List.length_append, List.length_cons, sp, List.length_replicate]
    omega
theorem jsizeP_le : ∀ (ps : JPairs) (ind : Nat), 1 ≤ ind → jsizeP ps ≤ (prPairs ps ind).length
  | .nil, _, _ => Nat.zero_le _
  | .cons k v .nil, ind, h => by
    have h1 := jsize_le v ind
    show 1 + jsize v + 0 ≤
      ((sp ind ++ ('\x22' :: escStr k)) ++ ('\x22' :: ':' :: ' ' :: pr v ind)).length
    simp only [List.length_append, List.length_cons, sp, List.length_replicate]
    omega
  | .cons k v (.cons k2 v2 ps2), ind, h => by
    have h1 := jsize_le v ind
    have h2 := jsizeP_le (.cons k2 v2 ps2) ind h
    show 1 + jsize v + jsizeP (.cons k2 v2 ps2) ≤
      (((sp ind ++ ('\x22' :: escStr k)) ++ ('\x22' :: ':' :: ' ' :: pr v ind)) ++
        (',' :: '\n' :: prPairs (.cons k2 v2 ps2) ind)).length
    simp only [List.length_append, List.length_cons, sp, List.length_replicate]
    omega
end

/-! ### Parser output is well-formed (keys pairwise distinct) -/

theorem snocL_WFL (v : Json) (hv : WFJ v) : ∀ acc : JList, WFL acc → WFL (snocL acc v)
  | .nil, _ => WFL.cons hv WFL.nil
  | .cons x xs, hacc => by
    cases hacc with
    | cons hx hxs => exact WFL.cons hx (snocL_WFL v hv xs hxs)

theorem parse_WF : ∀ fuel : Nat,
    (∀ s v r, pVal fuel s = some (v, r) → WFJ v) ∧
    (∀ acc s v r, WFP acc → pMembs fuel acc s = some (v, r) → WFJ v) ∧
    (∀ acc s v r, WFL acc → pElems fuel acc s = some (v, r) → WFJ v) := by
  intro fuel
  induction fuel with
  | zero =>
    refine ⟨?_, ?_, ?_⟩
    · intro s v r h
      rw [show pVal 0 s = none from rfl] at h
      simp at h
    · intro acc s v r hacc h
      rw [show pMembs 0 acc s = none from rfl] at h
      simp at h
    · intro acc s v r hacc h
      rw [show pElems 0 acc s = none from rfl] at h
      simp at h
  | succ f ih =>
    obtain ⟨ihV, ihM, ihE⟩ := ih
    refine ⟨?_, ?_, ?_⟩
    · intro s v r h
      cases s with
      | nil =>
        rw [show pVal (f + 1) ([] : List Char) = none from rfl] at h
        simp at h
      | cons c t =>
        rw [pVal.eq_def] at h
        dsimp only at h
        split_ifs at h with h1 h2 h3 h4 h5 h6 h7 h8 h9 h10 h11
        · rcases hps : pStr t with - | ⟨s2, r2⟩
          · rw [hps] at h
            simp at h
          · rw [hps] at h
            have h12 : some (Json.str s2, r2) = some (v, r) := h
            injection h12 with h13
            injection h13 with hv hr
            subst hv
            exact WFJ.str
        · split at h
          · injection h with h13
            injection h13 with hv hr
            subst hv
            exact WFJ.obj WFP.nil
          · exact ihM .nil _ v r WFP.nil h
        · split at h
          · injection h with h13
            injection h13 with hv hr
            subst hv
            exact WFJ.arr WFL.nil
          · exact ihE .nil _ v r WFL.nil h
        · injection h with h13
          injection h13 with hv hr
          subst hv
          exact WFJ.null
        · injection h with h13
          injection h13 with hv hr
          subst hv
          exact WFJ.bool
        · injection h with h13
          injection h13 with hv hr
          subst hv
          exact WFJ.bool
        · rcases hpn : pNumBody t with - | ⟨n2, r2⟩
          · rw [hpn] at h
            simp at h
          · rw [hpn] at h
            have h12 : some (Json.int (-(n2 : Int)), r2) = some (v, r) := h
            injection h12 with h13
            injection h13 with hv hr
            subst hv
            exact WFJ.int
        · rcases hpn : pNumBody (c :: t) with - | ⟨n2, r2⟩
          · rw [hpn] at h
            simp at h
          · rw [hpn] at h
            have h12 : some (Json.int ((n2 : Int)), r2) = some (v, r) := h
            injection h12 with h13
            injection h13 with hv hr
            subst hv
            exact WFJ.int
    · intro acc s v r hacc h
      rw [pMembs.eq_def] at h
      dsimp only at h
      split at h
      · next r5 =>
        split at h
        · simp at h
        · next k r1 heq1 =>
          split at h
          · next r2 heq2 =>
            split at h
            · simp at h
            · next v2 r3 heq3 =>
              have hv2 : WFJ v2 := ihV _ v2 r3 heq3
              split at h
              · next r4 heq4 =>
                exact ihM _ _ v r (insertKey_WFP _ v2 hv2 acc hacc) h
              · next r4 heq4 =>
                injection h with h13
                injection h13 with hv hr
                subst hv
                exact WFJ.obj (insertKey_WFP _ v2 hv2 acc hacc)
              · simp at h
          · simp at h
      · simp at h
    · intro acc s v r hacc h
      rw [pElems.eq_def] at h
      dsimp only at h
      split at h
      · simp at h
      · next v2 r1 heq1 =>
        have hv2 : WFJ v2 := ihV _ v2 r1 heq1
        split at h
        · next r2 heq2 =>
          exact ihE _ _ v r (snocL_WFL v2 hv2 acc hacc) h
        · next r2 heq2 =>
          injection h with h13
          injection h13 with hv hr
          subst hv
          exact WFJ.arr (snocL_WFL v2 hv2 acc hacc)
        · simp at h

theorem jloadsL_WF {l : List Char} {v : Json} (h : jloadsL l = some v) : WFJ v := by
  unfold jloadsL at h
  split at h
  · next v2 rest heq =>
    split_ifs at h
    injection h with hv
    subst hv
    exact (parse_WF _).1 _ _ _ heq
  · simp at h

/-- Printed output of a well-formed value parses back to the value. -/
theorem loads_dumps {v : Json} (h : WFJ v) : jloadsL (dumpsL v) = some v := by
  show jloadsL (pr v 0) = some v
  have hrt := (rt_all ((pr v 0).length + 1)).1 v 0 [] h
    (by have := jsize_le v 0; omega) trivial
  rw [List.append_nil] at hrt
  unfold jloadsL
  obtain ⟨c, t, hct, hws, -⟩ := pr_head v 0
  rw [show skipWs (pr v 0) = pr v 0 by rw [hct, skipWs_cons_of hws]]
  rw [hrt]
  rfl

/-- C5: on input that already parses as JSON (after `strip()`), the output of
`repair_and_format_json` parses back to an equal value, and a second
application returns the output unchanged. -/
theorem claim_C5 (s : String) (v : Json) (h : jloadsL (stripP s.data) = some v) :
    json_loads (repair_and_format_json s) = .ok v ∧
      repair_and_format_json (repair_and_format_json s) = repair_and_format_json s := by
  have hwf : WFJ v := jloadsL_WF h
  have hld : jloadsL (pr v 0) = some v := loads_dumps hwf
  have hout : repair_and_format_json s = String.mk (pr v 0) := by
    show String.mk (repairBody s.data) = _
    unfold repairBody
    rw [h]
  constructor
  · rw [hout]
    unfold json_loads
    rw [show (String.mk (pr v 0)).data = pr v 0 from rfl, hld]
  · rw [hout]
    show String.mk (repairBody (String.mk (pr v 0)).data) = String.mk (pr v 0)
    rw [show (String.mk (pr v 0)).data = pr v 0 from rfl]
    unfold repairBody
    rw [stripP_pr v 0, hld]

/-- Witness for C5 at the valid JSON input `" [1, {"a": null, "b": "x"}, true] "`. -/
theorem claim_C5_witness :
    jloadsL (stripP sC5w.data) = some vC5w ∧
      (json_loads (repair_and_format_json sC5w) = .ok vC5w ∧
        repair_and_format_json (repair_and_format_json sC5w) = repair_and_format_json sC5w) :=
  ⟨rfl, claim_C5 sC5w vC5w rfl⟩

/-! ### Bracket-count balance of printed JSON -/

theorem hexDigit_noBr (n : Nat) : noBr (hexDigit n) := by
  unfold hexDigit
  split <;> exact ⟨by decide, by decide, by decide, by decide⟩

theorem digit_noBr {c : Char} (h : c.isDigit = true) : noBr c := by
  refine ⟨?_, ?_, ?_, ?_⟩ <;> (intro e; subst e; exact absurd h (by decide))

theorem mem_escChar_noBr {c : Char} (hc : noBr c) : ∀ b ∈ escChar c, noBr b := by
  intro b hb
  unfold escChar at hb
  split_ifs at hb with h1 h2 h3 h4 h5 h6 h7 h8
  · simp at hb
    rcases hb with rfl | rfl <;> exact ⟨by decide, by decide, by decide, by decide⟩
  · simp at hb
    rcases hb with rfl | rfl <;> exact ⟨by decide, by decide, by decide, by decide⟩
  · simp at hb
    rcases hb with rfl | rfl <;> exact ⟨by decide, by decide, by decide, by decide⟩
  · simp at hb
    rcases hb with rfl | rfl <;> exact ⟨by decide, by decide, by decide, by decide⟩
  · simp at hb
    rcases hb with rfl | rfl <;> exact ⟨by decide, by decide, by decide, by decide⟩
  · simp at hb
    rcases hb with rfl | rfl <;> exact ⟨by decide, by decide, by decide, by decide⟩
  · simp at hb
    rcases hb with rfl | rfl <;> exact ⟨by decide, by decide, by decide, by decide⟩
  · simp at hb
    rcases hb with rfl | rfl | rfl | rfl | rfl <;> first
      | exact ⟨by decide, by decide, by decide, by decide⟩
      | exact hexDigit_noBr _
  · simp at hb
    subst hb
    exact hc

theorem escStr_noBr {s : List Char} (hs : ∀ c ∈ s, noBr c) : ∀ b ∈ escStr s, noBr b := by
  induction s with
  | nil =>
    intro b hb
    simp [escStr] at hb
  | cons c cs ih =>
    intro b hb
    rcases List.mem_append.mp (by simpa [escStr] using hb) with h | h
    · exact mem_escChar_noBr (hs c (List.mem_cons_self c cs)) b h
    · exact ih (fun x hx => hs x (List.mem_cons_of_mem c hx)) b h

theorem count_zero_of_noBr {l : List Char} (hl : ∀ c ∈ l, noBr c) :
    l.count '\x7b' = 0 ∧ l.count '\x7d' = 0 ∧ l.count '[' = 0 ∧ l.count ']' = 0 := by
  refine ⟨?_, ?_, ?_, ?_⟩
  · rw [List.count_eq_zero]
    intro hm
    exact (hl _ hm).1 rfl
  · rw [List.count_eq_zero]
    intro hm
    exact (hl _ hm).2.1 rfl
  · rw [List.count_eq_zero]
    intro hm
    exact (hl _ hm).2.2.1 rfl
  · rw [List.count_eq_zero]
    intro hm
    exact (hl _ hm).2.2.2 rfl

theorem sp_noBr (ind : Nat) : ∀ c ∈ sp ind, noBr c := by
  intro c hc
  have he : c = ' ' := List.eq_of_mem_replicate (by simpa [sp] using hc)
  subst he
  exact ⟨by decide, by decide, by decide, by decide⟩

theorem intChars_noBr (i : Int) : ∀ c ∈ intChars i, noBr c := by
  intro c hc
  cases i with
  | ofNat n => exact digit_noBr (natChars_digits n c hc)
  | negSucc m =>
    rcases List.mem_cons.mp (show c ∈ '-' :: natChars (m + 1) from hc) with rfl | h
    · exact ⟨by decide, by decide, by decide, by decide⟩
    · exact digit_noBr (natChars_digits _ c h)

/-! The printed form of a bracket-free-string value has exactly matching
counts of curly braces and of square brackets. -/
mutual
theorem balJ : ∀ (v : Json) (ind : Nat), NBJ v →
    (pr v ind).count '\x7b' = (pr v ind).count '\x7d' ∧
      (pr v ind).count '[' = (pr v ind).count ']'
  | .null, _, _ => ⟨rfl, rfl⟩
  | .bool true, _, _ => ⟨rfl, rfl⟩
  | .bool false, _, _ => ⟨rfl, rfl⟩
  | .int i, ind, _ => by
    obtain ⟨z1, z2, z3, z4⟩ := count_zero_of_noBr (intChars_noBr i)
    constructor
    · show (intChars i).count '\x7b' = (intChars i).count '\x7d'
      rw [z1, z2]
    · show (intChars i).count '[' = (intChars i).count ']'
      rw [z3, z4]
  | .str s2, ind, h => by
    have hs : ∀ c ∈ s2, noBr c := by
      cases h with
      | str hs => exact hs
    obtain ⟨z1, z2, z3, z4⟩ := count_zero_of_noBr (escStr_noBr hs)
    constructor
    · show (('\x22' :: escStr s2) ++ ['\x22']).count '\x7b' =
        (('\x22' :: escStr s2) ++ ['\x22']).count '\x7d'
      simp [List.count_append, List.count_cons, z1, z2]
    · show (('\x22' :: escStr s2) ++ ['\x22']).count '[' =
        (('\x22' :: escStr s2) ++ ['\x22']).count ']'
      simp [List.count_append, List.count_cons, z3, z4]
  | .arr .nil, _, _ => ⟨rfl, rfl⟩
  | .arr (.cons x xs), ind, h => by
    have hl : NBL (.cons x xs) := by
      cases h with
      | arr hl => exact hl
    obtain ⟨e1, e2⟩ := balL (.cons x xs) (ind + 1) hl
    obtain ⟨z1, z2, z3, z4⟩ := count_zero_of_noBr (sp_noBr ind)
    constructor
    · show ((('[' :: '\n' :: prItems (.cons x xs) (ind + 1)) ++ ('\n' :: sp ind)) ++
          [']']).count '\x7b' =
        ((('[' :: '\n' :: prItems (.cons x xs) (ind + 1)) ++ ('\n' :: sp ind)) ++
          [']']).count '\x7d'
      simp [List.count_append, List.count_cons, z1, z2, e1]
    · show ((('[' :: '\n' :: prItems (.cons x xs) (ind + 1)) ++ ('\n' :: sp ind)) ++
          [']']).count '[' =
        ((('[' :: '\n' :: prItems (.cons x xs) (ind + 1)) ++ ('\n' :: sp ind)) ++
          [']']).count ']'
      simp [List.count_append, List.count_cons, z3, z4, e2]
  | .obj .nil, _, _ => ⟨rfl, rfl⟩
  | .obj (.cons k v ps), ind, h => by
    have hp : NBP (.cons k v ps) := by
      cases h with
      | obj hp => exact hp
    obtain ⟨e1, e2⟩ := balP (.cons k v ps) (ind + 1) hp
    obtain ⟨z1, z2, z3, z4⟩ := count_zero_of_noBr (sp_noBr ind)
    constructor
    · show ((('\x7b' :: '\n' :: prPairs (.cons k v ps) (ind + 1)) ++ ('\n' :: sp ind)) ++
          ['\x7d']).count '\x7b' =
        ((('\x7b' :: '\n' :: prPairs (.cons k v ps) (ind + 1)) ++ ('\n' :: sp ind)) ++
          ['\x7d']).count '\x7d'
      simp [List.count_append, List.count_cons, z1, z2, e1]
    · show ((('\x7b' :: '\n' :: prPairs (.cons k v ps) (ind + 1)) ++ ('\n' :: sp ind)) ++
          ['\x7d']).count '[' =
        ((('\x7b' :: '\n' :: prPairs (.cons k v ps) (ind + 1)) ++ ('\n' :: sp ind)) ++
          ['\x7d']).count ']'
      simp [List.count_append, List.count_cons, z3, z4, e2]
theorem balL : ∀ (xs : JList) (ind : Nat), NBL xs →
    (prItems xs ind).count '\x7b' = (prItems xs ind).count '\x7d' ∧
      (prItems xs ind).count '[' = (prItems xs ind).count ']'
  | .nil, _, _ => ⟨rfl, rfl⟩
  | .cons x .nil, ind, h => by
    have hx : NBJ x := by
      cases h with
      | cons hx _ => exact hx
    obtain ⟨e1, e2⟩ := balJ x ind hx
    obtain ⟨z1, z2, z3, z4⟩ := count_zero_of_noBr (sp_noBr ind)
    constructor
    · show (sp ind ++ pr x ind).count '\x7b' = (sp ind ++ pr x ind).count '\x7d'
      simp [List.count_append, z1, z2, e1]
    · show (sp ind ++ pr x ind).count '[' = (sp ind ++ pr x ind).count ']'
      simp [List.count_append, z3, z4, e2]
  | .cons x (.cons y ys), ind, h => by
    obtain ⟨hx, hrest⟩ : NBJ x ∧ NBL (.cons y ys) := by
      cases h with
      | cons hx hrest => exact ⟨hx, hrest⟩
    obtain ⟨e1, e2⟩ := balJ x ind hx
    obtain ⟨f1, f2⟩ := balL (.cons y ys) ind hrest
    obtain ⟨z1, z2, z3, z4⟩ := count_zero_of_noBr (sp_noBr ind)
    constructor
    · show ((sp ind ++ pr x ind) ++ (',' :: '\n' :: prItems (.cons y ys) ind)).count '\x7b' =
        ((sp ind ++ pr x ind) ++ (',' :: '\n' :: prItems (.cons y ys) ind)).count '\x7d'
      simp [List.count_append, List.count_cons, z1, z2, e1, f1]
    · show ((sp ind ++ pr x ind) ++ (',' :: '\n' :: prItems (.cons y ys) ind)).count '[' =
        ((sp ind ++ pr x ind) ++ (',' :: '\n' :: prItems (.cons y ys) ind)).count ']'
      simp [List.count_append, List.count_cons, z3, z4, e2, f2]
theorem balP : ∀ (ps : JPairs) (ind : Nat), NBP ps →
    (prPairs ps ind).count '\x7b' = (prPairs ps ind).count '\x7d' ∧
      (prPairs ps ind).count '[' = (prPairs ps ind).count ']'
  | .nil, _, _ => ⟨rfl, rfl⟩
  | .cons k v .nil, ind, h => by
    obtain ⟨hk, hv⟩ : (∀ c ∈ k, noBr c) ∧ NBJ v := by
      cases h with
      | cons hk hv _ => exact ⟨hk, hv⟩
    obtain ⟨e1, e2⟩ := balJ v ind hv
    obtain ⟨z1, z2, z3, z4⟩ := count_zero_of_noBr (sp_noBr ind)
    obtain ⟨k1, k2, k3, k4⟩ := count_zero_of_noBr (escStr_noBr hk)
    constructor
    · show ((sp ind ++ ('\x22' :: escStr k)) ++
          ('\x22' :: ':' :: ' ' :: pr v ind)).count '\x7b' =
        ((sp ind ++ ('\x22' :: escStr k)) ++ ('\x22' :: ':' :: ' ' :: pr v ind)).count '\x7d'
      simp [List.count_append, List.count_cons, z1, z2, k1, k2, e1]
    · show ((sp ind ++ ('\x22' :: escStr k)) ++ ('\x22' :: ':' :: ' ' :: pr v ind)).count '[' =
        ((sp ind ++ ('\x22' :: escStr k)) ++ ('\x22' :: ':' :: ' ' :: pr v ind)).count ']'
      simp [List.count_append, List.count_cons, z3, z4, k3, k4, e2]
  | .cons k v (.cons k2 v2 ps2), ind, h => by
    obtain ⟨hk, hv, hrest⟩ : (∀ c ∈ k, noBr c) ∧ NBJ v ∧ NBP (.cons k2 v2 ps2) := by
      cases h with
      | cons hk hv hrest => exact ⟨hk, hv, hrest⟩
    obtain ⟨e1, e2⟩ := balJ v ind hv
    obtain ⟨f1, f2⟩ := balP (.cons k2 v2 ps2) ind hrest
    obtain ⟨z1, z2, z3, z4⟩ := count_zero_of_noBr (sp_noBr ind)
    obtain ⟨k1, k2e, k3, k4⟩ := count_zero_of_noBr (escStr_noBr hk)
    constructor
    · show (((sp ind ++ ('\x22' :: escStr k)) ++ ('\x22' :: ':' :: ' ' :: pr v ind)) ++
          (',' :: '\n' :: prPairs (.cons k2 v2 ps2) ind)).count '\x7b' =
        (((sp ind ++ ('\x22' :: escStr k)) ++ ('\x22' :: ':' :: ' ' :: pr v ind)) ++
          (',' :: '\n' :: prPairs (.cons k2 v2 ps2) ind)).count '\x7d'
      simp [List.count_append, List.count_cons, z1, z2, k1, k2e, e1, f1]
    · show (((sp ind ++ ('\x22' :: escStr k)) ++ ('\x22' :: ':' :: ' ' :: pr v ind)) ++
          (',' :: '\n' :: prPairs (.cons k2 v2 ps2) ind)).count '[' =
        (((sp ind ++ ('\x22' :: escStr k)) ++ ('\x22' :: ':' :: ' ' :: pr v ind)) ++
          (',' :: '\n' :: prPairs (.cons k2 v2 ps2) ind)).count ']'
      simp [List.count_append, List.count_cons, z3, z4, k3, k4, e2, f2]
end

/-- C1 (amended): the bracket-balance invariant does not hold for arbitrary
inputs; it does hold for every input that already parses as JSON (after
`strip()`) to a value whose strings and keys are bracket-free: then the
output has equal counts of curly braces and of square brackets. -/
theorem claim_C1 (s : String) (v : Json) (h : jloadsL (stripP s.data) = some v)
    (hnb : NBJ v) :
    (repair_and_format_json s).data.count '\x7b' =
        (repair_and_format_json s).data.count '\x7d' ∧
      (repair_and_format_json s).data.count '[' =
        (repair_and_format_json s).data.count ']' := by
  have hout : repair_and_format_json s = String.mk (pr v 0) := by
    show String.mk (repairBody s.data) = _
    unfold repairBody
    rw [h]
  rw [hout, show (String.mk (pr v 0)).data = pr v 0 from rfl]
  exact balJ v 0 hnb

/-- Witness for C1 at the valid JSON input `"[1, [2], {}]"`. -/
theorem claim_C1_witness :
    (jloadsL (stripP sC1w.data) = some vC1w ∧ NBJ vC1w) ∧
      ((repair_and_format_json sC1w).data.count '\x7b' =
          (repair_and_format_json sC1w).data.count '\x7d' ∧
        (repair_and_format_json sC1w).data.count '[' =
          (repair_and_format_json sC1w).data.count ']') :=
  ⟨⟨rfl, NBJ.arr (NBL.cons NBJ.int (NBL.cons (NBJ.arr (NBL.cons NBJ.int NBL.nil))
      (NBL.cons (NBJ.obj NBP.nil) NBL.nil)))⟩,
    claim_C1 sC1w vC1w rfl
      (NBJ.arr (NBL.cons NBJ.int (NBL.cons (NBJ.arr (NBL.cons NBJ.int NBL.nil))
        (NBL.cons (NBJ.obj NBP.nil) NBL.nil))))⟩

end AV
